import Mathlib

/-!
Verification of the GDD (Game Design Document) manager: the structured-document
subsystem that parses a YAML-frontmatter + Markdown document, maintains the
milestone/feature/task entity graph, edits heading-delimited body sections and
re-serializes the document.

Modelling conventions:
* JavaScript strings are modelled as `List Char` (abbreviated `Str`); the
  JavaScript `split('\n')`, `trim()`, regex tests and `Map` operations are
  modelled by explicit char-list functions below.
* The external YAML codec (js-yaml `load`/`dump`) is not part of the repository;
  it is modelled from the spec as a deterministic, injective codec over the
  value universe the spec names (strings, numbers, booleans, ordered lists,
  nested mappings), emitting mapping keys in insertion order (the source calls
  `yaml.dump` with `sortKeys: false`).
* Thrown JavaScript exceptions are modelled with `Except`; the operation
  boundary that catches them and skips the file write is `applyMutation`.
-/

/-! ## Char-level string model -/

/-- Strings of the modelled program: JavaScript strings as lists of chars. -/
abbrev Str := List Char

/-- Whitespace test modelling the JavaScript `\s` class and `trim()` set
(restricted to the ASCII whitespace that can occur in these documents). -/
def isWs (c : Char) : Bool := c = ' ' || c = '\t' || c = '\n' || c = '\r'

/-- Prepend a character onto the first of a list of lines. -/
def consLine (c : Char) : List Str → List Str
  | [] => [[c]]
  | l :: ls => (c :: l) :: ls

/-- Model of JavaScript `content.split('\n')`. -/
def splitNl : Str → List Str
  | [] => [[]]
  | c :: rest => if c = '\n' then [] :: splitNl rest else consLine c (splitNl rest)

/-- Model of JavaScript `lines.join('\n')`. -/
def joinNl : List Str → Str
  | [] => []
  | [l] => l
  | l :: ls => l ++ '\n' :: joinNl ls

/-- Model of JavaScript `String.prototype.trim`. -/
def trimChars (s : Str) : Str := ((s.dropWhile isWs).reverse.dropWhile isWs).reverse

/-! ## Section editor (`parseMarkdownSections` / `updateContentSection`) -/

/-- Model of `line.match(/^#+\s+(.+)$/)`, returning the captured heading text.
The `\s+` is greedy with backtracking: when something follows the whitespace
run the capture is everything after it; when the line is hashes plus
whitespace only, the regex backtracks one whitespace character into the
capture (so `#` + two spaces captures a single-space heading name). -/
def headerMatch (line : Str) : Option Str :=
  let hashes := line.takeWhile (fun c => c == '#')
  let rest := line.dropWhile (fun c => c == '#')
  let ws := rest.takeWhile isWs
  let tl := rest.dropWhile isWs
  if hashes.isEmpty || ws.isEmpty then none
  else if !tl.isEmpty then some tl
  else if ws.length ≥ 2 then some (ws.drop (ws.length - 1))
  else none

/-- Ordered string map modelling the JavaScript `Map<string, string>` of
sections: insertion order is significant. -/
abbrev SectionMap := List (Str × Str)

/-- Model of `Map.set`: overwrites in place (keeping the key's original
position) when the key exists, appends otherwise. -/
def mapSet (k v : Str) : SectionMap → SectionMap
  | [] => [(k, v)]
  | (k2, v2) :: rest => if k2 = k then (k, v) :: rest else (k2, v2) :: mapSet k v rest

/-- Model of `Map.has`. -/
def mapHas (m : SectionMap) (k : Str) : Bool := m.any (fun p => p.1 == k)

/-- Model of `Map.get` (as an `Option`). -/
def mapGet (m : SectionMap) (k : Str) : Option Str := (m.find? (fun p => p.1 == k)).map (·.2)

/-- Loop state of `parseMarkdownSections`: accumulated sections, the current
section name (`''` while in the preamble) and the current content lines. -/
structure SectState where
  acc : SectionMap
  cur : Str
  buf : List Str
deriving DecidableEq, Repr

/-- Model of `if (currentSection) sections.set(currentSection, currentContent.join('\n').trim())`:
the pending section is flushed into the map; the preamble (empty current
section, a falsy string) is discarded. -/
def flushSect (st : SectState) : SectionMap :=
  if st.cur.isEmpty then st.acc else mapSet st.cur (trimChars (joinNl st.buf)) st.acc

/-- One iteration of the `parseMarkdownSections` line loop. -/
def sectStep (st : SectState) (line : Str) : SectState :=
  match headerMatch line with
  | some name => { acc := flushSect st, cur := name, buf := [] }
  | none => { st with buf := st.buf ++ [line] }

/-- Model of `parseMarkdownSections` (src/unnamed/part_008 lines 161-185). -/
def parseMarkdownSections (content : Str) : SectionMap :=
  flushSect ((splitNl content).foldl sectStep { acc := [], cur := [], buf := [] })

/-- The three `update_content` operations. -/
inductive SectionOp
  | replace
  | append
  | prepend
deriving DecidableEq, Repr

/-- Rendering of one section when the body is rebuilt:
`` `# ${sectionName}\n\n${sectionContent}` ``. -/
def sectionBlock (k v : Str) : Str := '#' :: ' ' :: k ++ '\n' :: '\n' :: v

/-- Model of `rebuiltContent.join('\n\n')` over the section map. -/
def joinSections : SectionMap → Str
  | [] => []
  | [(k, v)] => sectionBlock k v
  | (k, v) :: rest => sectionBlock k v ++ '\n' :: '\n' :: joinSections rest

/-- The `switch (operation)` of `updateContentSection`: `replace` is also the
`default:` branch. -/
def combineContent (op : SectionOp) (existing newContent : Str) : Str :=
  match op with
  | .append => existing ++ '\n' :: '\n' :: newContent
  | .prepend => newContent ++ '\n' :: '\n' :: existing
  | .replace => newContent

/-- Model of `updateContentSection` (src/unnamed/part_008 lines 190-221). -/
def updateContentSection (content sectionName newContent : Str) (operation : SectionOp) : Str :=
  let sections := parseMarkdownSections content
  if !(mapHas sections sectionName) then
    content ++ ('\n' :: '\n' :: '#' :: ' ' :: sectionName) ++ ('\n' :: '\n' :: newContent)
  else
    let existing := (mapGet sections sectionName).getD []
    let updated := combineContent operation existing newContent
    joinSections (mapSet sectionName updated sections)

/-! ## Typed entity model (`GDDTask` / `GDDFeature` / `GDDMilestone` / `GDDFrontmatter`) -/

/-- Feature priorities (the `'P1' | 'P2' | 'P3'` enum). -/
inductive Priority
  | P1
  | P2
  | P3
deriving DecidableEq, Repr

/-- Model of interface `GDDTask`. The `estimate` number is modelled as a
rational so that averaging is exact. -/
structure GDDTask where
  id : String
  title : String
  estimate : Option Rat
deriving DecidableEq, Repr

/-- Model of interface `GDDMilestone`. -/
structure GDDMilestone where
  id : String
  title : String
deriving DecidableEq, Repr

/-- Model of interface `GDDFeature`. -/
structure GDDFeature where
  id : String
  title : String
  milestone : String
  priority : Priority
  acceptance : List String
  tasks : List GDDTask
deriving DecidableEq, Repr

/-- Model of interface `GDDFrontmatter` restricted to its typed schema keys
(the open `[key: string]: any` extra keys are handled by the string-level
`ParsedGDD`/`Yaml` model below and are untouched by the entity operations). -/
structure GDDFrontmatter where
  project : String
  version : String
  milestones : List GDDMilestone
  features : List GDDFeature
deriving DecidableEq, Repr

/-- The error kinds thrown by the entity operations (the source throws
`Error` with distinguishing messages; the constructors carry the data those
messages interpolate). -/
inductive GDDError
  | duplicateFeatureId (id : String)
  | danglingMilestone (milestone : String)
  | duplicateTaskId (taskId : String) (featureId : String)
  | featureNotFound (id : String)
  | taskNotFound (id : String)
deriving DecidableEq, Repr

/-- Model of TypeScript `Partial<GDDFeature>`: `some` means the key is
supplied, `none` that it is absent. -/
structure FeatureUpdates where
  id : Option String
  title : Option String
  milestone : Option String
  priority : Option Priority
  acceptance : Option (List String)
  tasks : Option (List GDDTask)
deriving DecidableEq, Repr

/-- Model of TypeScript `Partial<GDDTask>`. -/
structure TaskUpdates where
  id : Option String
  title : Option String
  estimate : Option (Option Rat)
deriving DecidableEq, Repr

/-- Shallow merge `{ ...existingFeature, ...updates }`. -/
def mergeFeature (f : GDDFeature) (u : FeatureUpdates) : GDDFeature :=
  { id := u.id.getD f.id
    title := u.title.getD f.title
    milestone := u.milestone.getD f.milestone
    priority := u.priority.getD f.priority
    acceptance := u.acceptance.getD f.acceptance
    tasks := u.tasks.getD f.tasks }

/-- Shallow merge `{ ...task, ...updates }`. -/
def mergeTask (t : GDDTask) (u : TaskUpdates) : GDDTask :=
  { id := u.id.getD t.id
    title := u.title.getD t.title
    estimate := match u.estimate with
      | some e => e
      | none => t.estimate }

/-- First duplicate in a list of ids, using a seen-set exactly like the
task-id loop of `addFeature`. -/
def firstDupId : List String → List String → Option String
  | _, [] => none
  | seen, i :: rest => if seen.contains i then some i else firstDupId (i :: seen) rest

/-- Model of `addFeature` (src/unnamed/part_008 lines 226-252): duplicate-id
check, milestone-reference check, per-feature task-id check, then append. -/
def addFeature (fm : GDDFrontmatter) (feature : GDDFeature) : Except GDDError GDDFrontmatter :=
  if fm.features.any (fun f => f.id == feature.id) then
    .error (.duplicateFeatureId feature.id)
  else if !(fm.milestones.any (fun m => m.id == feature.milestone)) then
    .error (.danglingMilestone feature.milestone)
  else
    match firstDupId [] (feature.tasks.map (·.id)) with
    | some t => .error (.duplicateTaskId t feature.id)
    | none => .ok { fm with features := fm.features ++ [feature] }

/-- The `findIndex` + assignment-at-index idiom of the source, modelled as a
first-match in-place update (`none` when no element satisfies the test). -/
def setFirstFeature (fid : String) (g : GDDFeature → GDDFeature) :
    List GDDFeature → Option (List GDDFeature)
  | [] => none
  | f :: fs =>
    if f.id == fid then some (g f :: fs)
    else (setFirstFeature fid g fs).map (f :: ·)

/-- Model of `updateFeature` (src/unnamed/part_008 lines 257-281). The
milestone reference is re-validated only under `if (updates.milestone)`,
which is JavaScript truthiness: a supplied but EMPTY milestone string is
falsy and skips the validation (kept faithfully; see the C4 analysis). -/
def updateFeature (fm : GDDFrontmatter) (featureId : String) (updates : FeatureUpdates) :
    Except GDDError GDDFrontmatter :=
  match setFirstFeature featureId (fun f => mergeFeature f updates) fm.features with
  | none => .error (.featureNotFound featureId)
  | some fs =>
    match updates.milestone with
    | some m =>
      if m != "" && !(fm.milestones.any (fun ms => ms.id == m)) then
        .error (.danglingMilestone m)
      else .ok { fm with features := fs }
    | none => .ok { fm with features := fs }

/-- Walk of `addTaskToFeature`: find the feature, reject a duplicate task id
within it, otherwise append the task to its list. -/
def addTaskWalk (featureId : String) (task : GDDTask) :
    List GDDFeature → Except GDDError (List GDDFeature)
  | [] => .error (.featureNotFound featureId)
  | f :: fs =>
    if f.id == featureId then
      if f.tasks.any (fun t => t.id == task.id) then
        .error (.duplicateTaskId task.id featureId)
      else .ok ({ f with tasks := f.tasks ++ [task] } :: fs)
    else (addTaskWalk featureId task fs).map (f :: ·)

/-- Model of `addTaskToFeature` (src/unnamed/part_008 lines 286-312). -/
def addTaskToFeature (fm : GDDFrontmatter) (featureId : String) (task : GDDTask) :
    Except GDDError GDDFrontmatter :=
  (addTaskWalk featureId task fm.features).map (fun fs => { fm with features := fs })

/-- Inner loop of `updateTask`: first task with the id in one feature's list. -/
def updateTasksFirst (taskId : String) (u : TaskUpdates) : List GDDTask → Option (List GDDTask)
  | [] => none
  | t :: ts =>
    if t.id == taskId then some (mergeTask t u :: ts)
    else (updateTasksFirst taskId u ts).map (t :: ·)

/-- Outer loop of `updateTask`: features scanned in document order. -/
def updateTaskWalk (taskId : String) (u : TaskUpdates) :
    List GDDFeature → Option (List GDDFeature)
  | [] => none
  | f :: fs =>
    match updateTasksFirst taskId u f.tasks with
    | some ts => some ({ f with tasks := ts } :: fs)
    | none => (updateTaskWalk taskId u fs).map (f :: ·)

/-- Model of `updateTask` (src/unnamed/part_008 lines 317-339). -/
def updateTask (fm : GDDFrontmatter) (taskId : String) (updates : TaskUpdates) :
    Except GDDError GDDFrontmatter :=
  match updateTaskWalk taskId updates fm.features with
  | some fs => .ok { fm with features := fs }
  | none => .error (.taskNotFound taskId)

/-- A task annotated with its owning feature id, as returned by `queryTasks`. -/
structure GDDTaskWithFeature where
  id : String
  title : String
  estimate : Option Rat
  featureId : String
deriving DecidableEq, Repr

/-- Model of `queryTasks` (src/unnamed/part_008 lines 394-412): the two
`continue` filters of the nested loops. -/
def queryTasks (fm : GDDFrontmatter) (featureId : Option String) (taskId : Option String) :
    List GDDTaskWithFeature :=
  fm.features.flatMap (fun f =>
    if (match featureId with | some x => f.id != x | none => false) then []
    else f.tasks.flatMap (fun t =>
      if (match taskId with | some x => t.id != x | none => false) then []
      else [{ id := t.id, title := t.title, estimate := t.estimate, featureId := f.id }]))

/-! ## Validation (`validateGDD`) -/

/-- The `check_type` enum of `validate_structure`. -/
inductive CheckType
  | all
  | frontmatter
  | content
  | references
deriving DecidableEq, Repr

/-- Model of interface `ValidationResult`. -/
structure ValidationResult where
  valid : Bool
  errors : List String
  warnings : List String
deriving DecidableEq, Repr

/-- The duplicate-id detection loop used for milestone ids, feature ids and
per-feature task ids: a growing seen-set, one error per repeated sighting. -/
def dupIdErrors (msg : String → String) : List String → List String → List String
  | _, [] => []
  | seen, i :: rest =>
    (if seen.contains i then [msg i] else []) ++ dupIdErrors msg (i :: seen) rest

/-- Frontmatter-scope errors: duplicate milestone ids and duplicate feature
ids. The Zod `GDDFrontmatterSchema.parse` check of the source always succeeds
on the typed embedding (field presence, types and the priority enum hold by
construction), so it contributes no errors here. -/
def frontmatterErrors (fm : GDDFrontmatter) : List String :=
  dupIdErrors (fun i => s!"Duplicate milestone ID: {i}") [] (fm.milestones.map (·.id)) ++
  dupIdErrors (fun i => s!"Duplicate feature ID: {i}") [] (fm.features.map (·.id))

/-- Reference-scope errors: milestone-reference resolution and per-feature
task-id uniqueness. -/
def referenceErrors (fm : GDDFrontmatter) : List String :=
  (fm.features.filter (fun f => !((fm.milestones.map (·.id)).contains f.milestone))).map
    (fun f => s!"Feature {f.id} references non-existent milestone {f.milestone}") ++
  (fm.features.map (fun f =>
    dupIdErrors (fun i => s!"Duplicate task ID {i} in feature {f.id}") []
      (f.tasks.map (·.id)))).flatten

/-- The advisory section list of the content check. -/
def commonSections : List String :=
  ["Game Overview", "Core Pillars", "Features", "Technical Requirements"]

/-- Content-scope warnings: empty body and missing conventional sections. -/
def contentWarnings (content : Str) : List String :=
  (if (trimChars content).isEmpty then ["Document content is empty"] else []) ++
  (commonSections.filter
    (fun s => !(mapHas (parseMarkdownSections content) s.data))).map
    (fun s => s!"Missing common section: {s}")

/-- Model of `validateGDD` (src/unnamed/part_008 lines 417-492): a total
function; invariant violations are data in `errors`/`warnings`, and
`valid` is `errors.length === 0`. -/
def validateGDD (fm : GDDFrontmatter) (content : Str) (checkType : CheckType) :
    ValidationResult :=
  let errors :=
    (if checkType = .all ∨ checkType = .frontmatter then frontmatterErrors fm else []) ++
    (if checkType = .all ∨ checkType = .references then referenceErrors fm else [])
  let warnings :=
    if checkType = .all ∨ checkType = .content then contentWarnings content else []
  { valid := errors.isEmpty, errors := errors, warnings := warnings }

/-! ## Summary export (`exportSummary` estimates) -/

/-- Model of `(task.estimate || 0)`: the only falsy rational is `0`, and
`0 || 0` is `0`, so this is the absent-as-zero reading. -/
def taskEstimateOr0 (e : Option Rat) : Rat :=
  match e with
  | some v => v
  | none => 0

/-- Model of `x || 0` applied to the computed average: `NaN` (the `0/0` of
the zero-task division, which rational division also sends to `0`) and a
zero average both collapse to `0`. -/
def numOrZero (x : Rat) : Rat := if x = 0 then 0 else x

/-- The `totalEstimate` reduction of `exportSummary` (line 512). -/
def summaryTotalEstimate (fm : GDDFrontmatter) : Rat :=
  (queryTasks fm none none).foldl (fun sum t => sum + taskEstimateOr0 t.estimate) 0

/-- The `averageTaskEstimate` of `exportSummary` (line 513):
`total / count || 0`. -/
def summaryAverageTaskEstimate (fm : GDDFrontmatter) : Rat :=
  numOrZero (summaryTotalEstimate fm / ((queryTasks fm none none).length : Rat))

/-- The `estimates` object of `exportSummary`'s data. -/
structure EstimatesSummary where
  totalEstimate : Rat
  averageTaskEstimate : Rat
deriving DecidableEq, Repr

/-- The `estimates` aggregate of `exportSummary` (src/unnamed/part_008 lines
511-514). -/
def summaryEstimates (fm : GDDFrontmatter) : EstimatesSummary :=
  { totalEstimate := summaryTotalEstimate fm
    averageTaskEstimate := summaryAverageTaskEstimate fm }

/-- Modelled from the spec: "`estimates.totalEstimate` equals the sum of all
tasks' estimate fields (treating absent as 0)" — the spec-side sum, to be
compared with the implementation's reduction. -/
def specTotalEstimate (fm : GDDFrontmatter) : Rat :=
  ((fm.features.flatMap (·.tasks)).map (fun t => taskEstimateOr0 t.estimate)).sum

/-! ## Operation boundary (`manageGDD`) -/

/-- The stored document after a mutating action: on a thrown error the
`manageGDD` catch converts it to a failure envelope and the file write is
skipped, so storage keeps the prior frontmatter. -/
def applyMutation (fm : GDDFrontmatter) (r : Except GDDError GDDFrontmatter) : GDDFrontmatter :=
  match r with
  | .ok fm2 => fm2
  | .error _ => fm

/-- The `add_task` branch of `manageGDD` (lines 705-715): mutates and returns
the supplied task as the response data. -/
def manageAddTask (fm : GDDFrontmatter) (featureId : String) (task : GDDTask) :
    Except GDDError (GDDFrontmatter × GDDTask) :=
  (addTaskToFeature fm featureId task).map (fun fm2 => (fm2, task))

/-- The `update_task` branch of `manageGDD` (lines 717-727): mutates, then the
response data is `queryTasks(updated, undefined, task_id)[0]` — the first
task that bears the ORIGINAL task id in the updated document (`none` models
the JavaScript `undefined` of an empty query). -/
def manageUpdateTask (fm : GDDFrontmatter) (taskId : String) (u : TaskUpdates) :
    Except GDDError (GDDFrontmatter × Option GDDTaskWithFeature) :=
  match updateTask fm taskId u with
  | .error e => .error e
  | .ok fm2 => .ok (fm2, (queryTasks fm2 none (some taskId)).head?)

/-- The `validate_structure` branch of `manageGDD` (lines 750-757): never
throws for invariant violations — the validation result is returned as the
data of a successful envelope. -/
def manageValidate (fm : GDDFrontmatter) (content : Str) (checkType : CheckType) :
    Except GDDError ValidationResult :=
  .ok (validateGDD fm content checkType)

/-! ## String-level document model: YAML codec and the frontmatter regex

Modelled from the spec: the metadata encoding (the external js-yaml library,
not part of this repository) "must support: strings, numbers, booleans,
ordered lists, and nested mappings, with stable deterministic re-encoding".
`Yaml` is that value universe; `dumpYaml`/`yamlLoad` model `yaml.dump` (called
with `sortKeys: false`, hence keys in insertion order) and `yaml.load` as a
deterministic injective printer/parser pair. The concrete surface syntax is a
single-line flow rendering (every string quoted and newline-escaped), chosen
so the codec is faithful in the properties the claims use: determinism,
insertion-ordered mapping keys, round-tripping, and a dump free of newlines
(js-yaml never emits a bare `---` line for these values either, which is what
the frontmatter regex needs). -/

/-- YAML values: strings, numbers, booleans, ordered lists, ordered mappings. -/
inductive Yaml where
  | str (s : Str)
  | num (n : Int)
  | bool (b : Bool)
  | arr (xs : List Yaml)
  | map (kvs : List (Str × Yaml))

/-- Decimal digit to character. -/
def digitChar (d : Nat) : Char := Char.ofNat (48 + d)

/-- Decimal digits of a natural number, least significant first (the fuel
argument only makes the recursion structural; `natDigitsRev` supplies enough). -/
def natDigitsAux : Nat → Nat → List Nat
  | 0, _ => []
  | fuel + 1, n => if n < 10 then [n] else n % 10 :: natDigitsAux fuel (n / 10)

/-- Decimal digits of a natural number, least significant first. -/
def natDigitsRev (n : Nat) : List Nat := natDigitsAux (n + 1) n

/-- Decimal rendering of a natural number. -/
def natChars (n : Nat) : Str := (natDigitsRev n).reverse.map digitChar

/-- Decimal rendering of an integer. -/
def intChars (n : Int) : Str :=
  if n < 0 then '-' :: natChars n.natAbs else natChars n.toNat

/-- String escaping inside double quotes. -/
def escChar (c : Char) : Str :=
  if c = '"' then ['\\', '"']
  else if c = '\\' then ['\\', '\\']
  else if c = '\n' then ['\\', 'n']
  else [c]

/-- Escape a whole string. -/
def escapeChars (s : Str) : Str := s.flatMap escChar

mutual

/-- The modelled `yaml.dump` body (without the trailing newline js-yaml adds;
see `dumpYamlDoc`). -/
def dumpYaml : Yaml → Str
  | .str s => '"' :: (escapeChars s ++ ['"'])
  | .num n => intChars n
  | .bool true => ['t', 'r', 'u', 'e']
  | .bool false => ['f', 'a', 'l', 's', 'e']
  | .arr xs => '[' :: (dumpElems xs ++ [']'])
  | .map kvs => '\x7b' :: (dumpPairs kvs ++ ['\x7d'])

/-- List elements, comma-separated. -/
def dumpElems : List Yaml → Str
  | [] => []
  | [x] => dumpYaml x
  | x :: xs => dumpYaml x ++ ',' :: ' ' :: dumpElems xs

/-- Mapping entries in insertion order (`sortKeys: false`). -/
def dumpPairs : List (Str × Yaml) → Str
  | [] => []
  | [(k, v)] => ('"' :: (escapeChars k ++ ['"', ':', ' '])) ++ dumpYaml v
  | (k, v) :: kvs =>
    (('"' :: (escapeChars k ++ ['"', ':', ' '])) ++ dumpYaml v) ++ ',' :: ' ' :: dumpPairs kvs

end

/-- Parse the remainder of a quoted string (after the opening quote), undoing
`escChar`. -/
def parseStringTail : Str → Option (Str × Str)
  | [] => none
  | c :: rest =>
    if c = '\\' then
      match rest with
      | [] => none
      | e :: rest2 =>
        (parseStringTail rest2).map (fun r => ((if e = 'n' then '\n' else e) :: r.1, r.2))
    else if c = '"' then some ([], rest)
    else (parseStringTail rest).map (fun r => (c :: r.1, r.2))

/-- Decimal digit test. -/
def isDigit (c : Char) : Bool := '0' ≤ c && c ≤ '9'

/-- Value of a digit character. -/
def digitVal (c : Char) : Nat := c.toNat - 48

/-- Parse a nonempty run of digits as a natural number. -/
def parseNatChars (cs : Str) : Option (Nat × Str) :=
  let ds := cs.takeWhile isDigit
  if ds.isEmpty then none
  else some (ds.foldl (fun a c => a * 10 + digitVal c) 0, cs.dropWhile isDigit)

mutual

/-- Fuel-indexed parser for the modelled YAML flow syntax, dispatching on the
first character: quoted string, `true`/`false`, flow list, flow mapping, or a
(possibly negated) decimal number. -/
def parseYaml : Nat → Str → Option (Yaml × Str)
  | 0, _ => none
  | _ + 1, [] => none
  | fuel + 1, c :: cs =>
    if c = '"' then (parseStringTail cs).map (fun r => (Yaml.str r.1, r.2))
    else if c = 't' then
      if cs.take 3 = ['r', 'u', 'e'] then some (.bool true, cs.drop 3) else none
    else if c = 'f' then
      if cs.take 4 = ['a', 'l', 's', 'e'] then some (.bool false, cs.drop 4) else none
    else if c = '[' then
      if cs.head? = some ']' then some (.arr [], cs.tail)
      else (parseElemsY fuel cs).map (fun r => (Yaml.arr r.1, r.2))
    else if c = '\x7b' then
      if cs.head? = some '\x7d' then some (.map [], cs.tail)
      else (parsePairsY fuel cs).map (fun r => (Yaml.map r.1, r.2))
    else if c = '-' then (parseNatChars cs).map (fun r => (Yaml.num (-(r.1 : Int)), r.2))
    else if isDigit c then (parseNatChars (c :: cs)).map (fun r => (Yaml.num (r.1 : Int), r.2))
    else none

/-- Parse one or more comma-separated list elements up to `]`. -/
def parseElemsY : Nat → Str → Option (List Yaml × Str)
  | 0, _ => none
  | fuel + 1, cs =>
    match parseYaml fuel cs with
    | none => none
    | some (v, rest) =>
      match rest with
      | ',' :: ' ' :: rest2 => (parseElemsY fuel rest2).map (fun r => (v :: r.1, r.2))
      | ']' :: rest2 => some ([v], rest2)
      | _ => none

/-- Parse one or more comma-separated mapping entries up to the closing brace. -/
def parsePairsY : Nat → Str → Option (List (Str × Yaml) × Str)
  | 0, _ => none
  | fuel + 1, '"' :: cs =>
    match parseStringTail cs with
    | none => none
    | some (k, rest) =>
      match rest with
      | ':' :: ' ' :: rest2 =>
        match parseYaml fuel rest2 with
        | none => none
        | some (v, rest3) =>
          match rest3 with
          | ',' :: ' ' :: rest4 => (parsePairsY fuel rest4).map (fun r => ((k, v) :: r.1, r.2))
          | '\x7d' :: rest4 => some ([(k, v)], rest4)
          | _ => none
      | _ => none
  | _ + 1, _ => none

end

/-- The modelled `yaml.load`: a full parse of the input as one value. -/
def yamlLoad (cs : Str) : Option Yaml :=
  match parseYaml (cs.length + 1) cs with
  | some (v, []) => some v
  | _ => none

mutual

/-- Structural size of a YAML value, used as the fuel bound of the parser
round-trip (scalars count 1 so the bound is dominated by the dump length). -/
def ysize : Yaml → Nat
  | .str _ => 1
  | .num _ => 1
  | .bool _ => 1
  | .arr xs => 1 + ysizeList xs
  | .map kvs => 1 + ysizePairs kvs

/-- Size of a list of YAML values. -/
def ysizeList : List Yaml → Nat
  | [] => 0
  | x :: xs => 1 + ysize x + ysizeList xs

/-- Size of a list of YAML mapping entries. -/
def ysizePairs : List (Str × Yaml) → Nat
  | [] => 0
  | kv :: kvs => 1 + ysize kv.2 + ysizePairs kvs

end

/-- A continuation in front of which a number parse stops: empty or starting
with a non-digit. -/
def stopOK (rest : Str) : Prop := ∀ c ∈ rest.head?, isDigit c = false

/-- Model of interface `ParsedGDD` at the string level: the loaded YAML value
of the fenced block and the markdown body. (The entity operations view the
same runtime object through the typed `GDDFrontmatter` lens.) -/
structure ParsedGDD where
  frontmatter : Yaml
  content : Str

/-- All match candidates of the greedy-with-backtracking `\s*\n` regex
component at the front of `cs`: the remainders after consuming an
all-whitespace prefix that ends with a newline, longest consumption (the
greedy preference) first. -/
def wsNlRemainders (cs : Str) : List Str :=
  let run := cs.takeWhile isWs
  (List.range run.length).reverse.filterMap (fun i =>
    if run[i]? = some '\n' then some (cs.drop (i + 1)) else none)

/-- The lazy group scan of the frontmatter regex: the shortest prefix (the
group-1 capture) after which a newline, three dashes and a greedy
whitespace-then-newline run match; the result pairs the capture with the
remainder after that terminator. -/
def scanTerminator : Str → Option (Str × Str)
  | [] => none
  | '\n' :: '-' :: '-' :: '-' :: rest2 =>
    match wsNlRemainders rest2 with
    | r :: _ => some ([], r)
    | [] =>
      (scanTerminator rest2).map (fun p => ('\n' :: '-' :: '-' :: '-' :: p.1, p.2))
  | c :: rest => (scanTerminator rest).map (fun p => (c :: p.1, p.2))

/-- First candidate on which the continuation succeeds (regex backtracking
over the opening whitespace consumption). -/
def firstScan : List Str → Option (Str × Str)
  | [] => none
  | x :: xs =>
    match scanTerminator x with
    | some r => some r
    | none => firstScan xs

/-- Model of the anchored frontmatter regex match of `parseFrontmatter`:
three opening dashes, whitespace-newline, the lazy group-1 capture, the
dashed terminator, and group 2 running to the end; returns the
(frontmatter-text, body) split. -/
def parseFMSplit (cs : Str) : Option (Str × Str) :=
  match cs with
  | '-' :: '-' :: '-' :: rest => firstScan (wsNlRemainders rest)
  | _ => none

/-- Model of `parseFrontmatter` (src/unnamed/part_008 lines 126-142): `none`
models the thrown `Invalid GDD format` / `Invalid YAML frontmatter` errors. -/
def parseFrontmatter (content : Str) : Option ParsedGDD :=
  match parseFMSplit content with
  | none => none
  | some (fmChars, body) =>
    match yamlLoad fmChars with
    | none => none
    | some fm => some { frontmatter := fm, content := body }

/-- The dumped document text: js-yaml's dump ends with a newline. -/
def dumpYamlDoc (v : Yaml) : Str := dumpYaml v ++ ['\n']

/-- Model of `serializeGDD` (src/unnamed/part_008 lines 147-156): the
template `---`, newline, dumped frontmatter, `---`, blank line, body. -/
def serializeGDD (gdd : ParsedGDD) : Str :=
  ('-' :: '-' :: '-' :: '\n' :: dumpYamlDoc gdd.frontmatter) ++
    ('-' :: '-' :: '-' :: '\n' :: '\n' :: gdd.content)

/-! ## Auxiliary definitions used by the statements and proofs -/

/-- A body fragment none of whose lines is a heading line: splicing it into a
section keeps the document's heading structure intact. -/
def headingFree (v : Str) : Prop := ∀ l ∈ splitNl v, headerMatch l = none

/-- The line-level view of `joinSections`: heading line, blank line, content
lines, blank separator line between sections. -/
def renderLines : SectionMap → List Str
  | [] => []
  | [(k, v)] => ('#' :: ' ' :: k) :: [] :: splitNl v
  | (k, v) :: rest => ('#' :: ' ' :: k) :: [] :: (splitNl v ++ [] :: renderLines rest)

/-- Lookup in a YAML mapping by key (the mapping read as a dictionary,
ignoring order) — used to state that two mappings are equal as mappings. -/
def lookupPairs (kvs : List (Str × Yaml)) (k : Str) : Option Yaml :=
  (kvs.find? (fun p => p.1 == k)).map (·.2)

/-- A `FeatureUpdates` that only changes the feature id. -/
def featureIdUpdate (newId : String) : FeatureUpdates :=
  { id := some newId, title := none, milestone := none, priority := none,
    acceptance := none, tasks := none }

/-- A `TaskUpdates` that only changes the task id. -/
def taskIdUpdate (newId : String) : TaskUpdates :=
  { id := some newId, title := none, estimate := none }

/-- Concrete document used by the C4 evaluation: one milestone `M1`, one
feature `F-1` referencing it. -/
def fmRefDoc : GDDFrontmatter :=
  { project := "P", version := "1"
    milestones := [{ id := "M1", title := "m" }]
    features := [{ id := "F-1", title := "f", milestone := "M1", priority := .P1,
                   acceptance := [], tasks := [] }] }

/-- Concrete document with tasks estimated 3, 5 and one without an estimate
(the spec's estimates scenario). -/
def fmEstDoc : GDDFrontmatter :=
  { project := "P", version := "1"
    milestones := [{ id := "M1", title := "m" }]
    features := [{ id := "F-1", title := "f", milestone := "M1", priority := .P1,
                   acceptance := [],
                   tasks := [{ id := "T1", title := "a", estimate := some 3 },
                             { id := "T2", title := "b", estimate := some 5 },
                             { id := "T3", title := "c", estimate := none }] }] }

/-- Concrete document with one feature and one task `T-1` (estimate 5). -/
def fmTaskDoc : GDDFrontmatter :=
  { project := "P", version := "1"
    milestones := [{ id := "M1", title := "m" }]
    features := [{ id := "F-1", title := "f", milestone := "M1", priority := .P1,
                   acceptance := [],
                   tasks := [{ id := "T-1", title := "x", estimate := some 5 }] }] }

/-- Concrete document with two features under one milestone, the second
holding two tasks (used by the id-collision evaluations). -/
def fmTwoFeatDoc : GDDFrontmatter :=
  { project := "P", version := "1"
    milestones := [{ id := "M1", title := "m" }]
    features := [{ id := "F-1", title := "f", milestone := "M1", priority := .P1,
                   acceptance := [], tasks := [] },
                 { id := "F-2", title := "g", milestone := "M1", priority := .P2,
                   acceptance := [],
                   tasks := [{ id := "T1", title := "a", estimate := none },
                             { id := "T2", title := "b", estimate := none }] }] }

/-- First mapping order of the serialization counterexample. -/
def kvsOrderA : List (Str × Yaml) :=
  [("project".data, Yaml.str "x".data), ("version".data, Yaml.str "1".data)]

/-- Second mapping order of the serialization counterexample: the same
entries, inserted in the opposite order. -/
def kvsOrderB : List (Str × Yaml) :=
  [("version".data, Yaml.str "1".data), ("project".data, Yaml.str "x".data)]

/-- Body with two sections `A` and `B`, used by the frame evaluations. -/
def bodyAB : Str := ("# A\n\na\n\n# B\n\nb").data

/-- Body with a preamble line and a level-2 heading, used to exhibit the
normalization of the rebuilt document. -/
def bodyPre : Str := ("Pre\n# A\n\na\n\n## B\n\nb").data

/-- One-section body used by the missing-section evaluation. -/
def bodyA : Str := ("# A\n\na").data

/-- The stored document after the C4 update: feature `F-1` references the
empty-string milestone, which does not exist. -/
def fmBadDoc : GDDFrontmatter :=
  { project := "P", version := "1"
    milestones := [{ id := "M1", title := "m" }]
    features := [{ id := "F-1", title := "f", milestone := "", priority := .P1,
                   acceptance := [], tasks := [] }] }

/-- `fmTaskDoc` after `update_task` changed the task id to `T-9`. -/
def fmT9Doc : GDDFrontmatter :=
  { project := "P", version := "1"
    milestones := [{ id := "M1", title := "m" }]
    features := [{ id := "F-1", title := "f", milestone := "M1", priority := .P1,
                   acceptance := [],
                   tasks := [{ id := "T-9", title := "x", estimate := some 5 }] }] }

/-- `fmTwoFeatDoc` after `update_feature` renamed `F-1` to `F-2`: two
features now share an id. -/
def fmDupFeatDoc : GDDFrontmatter :=
  { project := "P", version := "1"
    milestones := [{ id := "M1", title := "m" }]
    features := [{ id := "F-2", title := "f", milestone := "M1", priority := .P1,
                   acceptance := [], tasks := [] },
                 { id := "F-2", title := "g", milestone := "M1", priority := .P2,
                   acceptance := [],
                   tasks := [{ id := "T1", title := "a", estimate := none },
                             { id := "T2", title := "b", estimate := none }] }] }

/-- `fmTwoFeatDoc` after `update_task` renamed `T1` to `T2`: feature `F-2`
holds two tasks with one id. -/
def fmDupTaskDoc : GDDFrontmatter :=
  { project := "P", version := "1"
    milestones := [{ id := "M1", title := "m" }]
    features := [{ id := "F-1", title := "f", milestone := "M1", priority := .P1,
                   acceptance := [], tasks := [] },
                 { id := "F-2", title := "g", milestone := "M1", priority := .P2,
                   acceptance := [],
                   tasks := [{ id := "T2", title := "a", estimate := none },
                             { id := "T2", title := "b", estimate := none }] }] }

/-! ## Lemmas: lines, joining, trimming -/

/-- Splitting never yields an empty list of lines. -/
theorem splitNl_ne_nil (cs : Str) : splitNl cs ≠ [] := by
  cases cs with
  | nil => simp [splitNl]
  | cons c rest =>
    simp only [splitNl]
    by_cases hc : c = '\n'
    · simp [hc]
    · cases h : splitNl rest <;> simp [hc, consLine]

/-- Joining undoes splitting. -/
theorem joinNl_splitNl (cs : Str) : joinNl (splitNl cs) = cs := by
  induction cs with
  | nil => simp [splitNl, joinNl]
  | cons c rest ih =>
    simp only [splitNl]
    by_cases hc : c = '\n'
    · cases h : splitNl rest with
      | nil => exact absurd h (splitNl_ne_nil rest)
      | cons l ls =>
        rw [h] at ih
        subst hc
        simp only [if_pos rfl, joinNl, List.nil_append]
        cases ls with
        | nil => simp only [joinNl] at ih ⊢; simp [ih]
        | cons l2 ls2 => simp [ih]
    · cases h : splitNl rest with
      | nil => exact absurd h (splitNl_ne_nil rest)
      | cons l ls =>
        rw [h] at ih
        simp only [if_neg hc, consLine]
        cases ls with
        | nil => simp only [joinNl] at ih ⊢; simp [ih]
        | cons l2 ls2 => simp only [joinNl] at ih ⊢; simp [← ih]

/-- Splitting distributes over concatenation at a newline. -/
theorem splitNl_append_nl (a b : Str) : splitNl (a ++ '\n' :: b) = splitNl a ++ splitNl b := by
  induction a with
  | nil => simp [splitNl]
  | cons c a ih =>
    simp only [List.cons_append, splitNl, List.append_eq]
    rw [ih]
    by_cases hc : c = '\n'
    · simp [hc]
    · cases h : splitNl a with
      | nil => exact absurd h (splitNl_ne_nil a)
      | cons l ls => simp [hc, consLine]

/-- A newline-free string is a single line. -/
theorem splitNl_no_nl (l : Str) (h : '\n' ∉ l) : splitNl l = [l] := by
  induction l with
  | nil => simp [splitNl]
  | cons c rest ih =>
    simp only [List.mem_cons, not_or] at h
    have hc : ¬ c = '\n' := fun hx => h.1 hx.symm
    simp [splitNl, ih h.2, hc, consLine]

/-- Characters of split lines come from the split string. -/
theorem mem_of_mem_splitNl (cs : Str) : ∀ l ∈ splitNl cs, ∀ c ∈ l, c ∈ cs := by
  induction cs with
  | nil =>
    intro l hl c hc
    simp only [splitNl, List.mem_singleton] at hl
    simp [hl] at hc
  | cons x rest ih =>
    intro l hl c hc
    simp only [splitNl] at hl
    by_cases hx : x = '\n'
    · rw [if_pos hx] at hl
      rcases List.mem_cons.mp hl with hl | hl
      · simp [hl] at hc
      · exact List.mem_cons_of_mem _ (ih l hl c hc)
    · rw [if_neg hx] at hl
      cases h : splitNl rest with
      | nil => exact absurd h (splitNl_ne_nil rest)
      | cons l0 ls =>
        rw [h] at hl
        simp only [consLine] at hl
        rcases List.mem_cons.mp hl with hl | hl
        · subst hl
          rcases List.mem_cons.mp hc with hc | hc
          · simp [hc]
          · exact List.mem_cons_of_mem _ (ih l0 (h ▸ List.mem_cons_self _ _) c hc)
        · exact List.mem_cons_of_mem _ (ih l (h ▸ List.mem_cons_of_mem _ hl) c hc)

/-- The head surviving a `dropWhile` refutes the predicate. -/
theorem dropWhile_head_not (p : Char → Bool) (l : Str) :
    ∀ h ∈ (l.dropWhile p).head?, p h = false := by
  induction l with
  | nil => simp [List.dropWhile]
  | cons c rest ih =>
    intro h hh
    rw [List.dropWhile_cons] at hh
    by_cases hc : p c
    · rw [if_pos hc] at hh; exact ih h hh
    · rw [if_neg hc] at hh
      simp only [List.head?_cons, Option.mem_def, Option.some.injEq] at hh
      subst hh
      simpa using hc

/-- A list whose head refutes the predicate is untouched by `dropWhile`. -/
theorem dropWhile_eq_self_of_head (p : Char → Bool) (l : Str)
    (h : ∀ c ∈ l.head?, p c = false) : l.dropWhile p = l := by
  cases l with
  | nil => rfl
  | cons c rest =>
    have hc := h c (by simp)
    simp [List.dropWhile_cons, hc]

/-- A nonempty `dropWhile` keeps the original last element. -/
theorem getLast?_dropWhile (p : Char → Bool) (l : Str) (h : l.dropWhile p ≠ []) :
    (l.dropWhile p).getLast? = l.getLast? := by
  induction l with
  | nil => simp [List.dropWhile] at h
  | cons c rest ih =>
    rw [List.dropWhile_cons] at h ⊢
    by_cases hc : p c
    · rw [if_pos hc] at h ⊢
      have hr : rest ≠ [] := by
        intro he; subst he; simp [List.dropWhile] at h
      rw [ih h]
      cases rest with
      | nil => exact absurd rfl hr
      | cons r rs => rw [List.getLast?_cons_cons]
    · rw [if_neg hc]

/-- Dropping from a concatenation when the first part does not vanish. -/
theorem dropWhile_append_of_ne_nil (p : Char → Bool) (a b : Str) (h : a.dropWhile p ≠ []) :
    (a ++ b).dropWhile p = a.dropWhile p ++ b := by
  induction a with
  | nil => simp [List.dropWhile] at h
  | cons c rest ih =>
    rw [List.dropWhile_cons] at h
    simp only [List.cons_append, List.dropWhile_cons]
    by_cases hc : p c
    · simp only [if_pos hc] at h ⊢; exact ih h
    · simp only [if_neg hc] at h ⊢; simp

/-- Dropping from a concatenation when the first part vanishes entirely. -/
theorem dropWhile_append_of_nil (p : Char → Bool) (a b : Str) (h : a.dropWhile p = []) :
    (a ++ b).dropWhile p = b.dropWhile p := by
  induction a with
  | nil => simp
  | cons c rest ih =>
    rw [List.dropWhile_cons] at h
    simp only [List.cons_append, List.dropWhile_cons]
    by_cases hc : p c
    · simp only [if_pos hc] at h ⊢; exact ih h
    · simp only [if_neg hc] at h; simp at h

/-- Trimming absorbs a leading whitespace character. -/
theorem trimChars_cons_ws (c : Char) (s : Str) (h : isWs c = true) :
    trimChars (c :: s) = trimChars s := by
  simp [trimChars, List.dropWhile_cons, h]

/-- Trimming absorbs a trailing whitespace character. -/
theorem trimChars_append_ws (s : Str) (c : Char) (h : isWs c = true) :
    trimChars (s ++ [c]) = trimChars s := by
  unfold trimChars
  by_cases h0 : s.dropWhile isWs = []
  · rw [dropWhile_append_of_nil _ _ _ h0, h0]
    simp [List.dropWhile_cons, h, List.dropWhile]
  · rw [dropWhile_append_of_ne_nil _ _ _ h0]
    rw [List.reverse_append]
    simp only [List.reverse_singleton, List.singleton_append, List.dropWhile_cons, h, if_pos]

/-- Trimming is idempotent. -/
theorem trimChars_idem (s : Str) : trimChars (trimChars s) = trimChars s := by
  unfold trimChars
  by_cases hb : (s.dropWhile isWs).reverse.dropWhile isWs = []
  · simp [hb, List.dropWhile]
  · have h1 : ∀ c ∈ ((s.dropWhile isWs).reverse.dropWhile isWs).reverse.head?, isWs c = false := by
      intro c hc
      rw [List.head?_reverse, getLast?_dropWhile _ _ hb, List.getLast?_reverse] at hc
      exact dropWhile_head_not isWs s c hc
    rw [dropWhile_eq_self_of_head _ _ h1, List.reverse_reverse]
    have h3 : ∀ c ∈ ((s.dropWhile isWs).reverse.dropWhile isWs).head?, isWs c = false :=
      dropWhile_head_not isWs (s.dropWhile isWs).reverse
    rw [dropWhile_eq_self_of_head _ _ h3]

/-- Joining distributes over concatenation of nonempty line lists. -/
theorem joinNl_append (a b : List Str) (ha : a ≠ []) (hb : b ≠ []) :
    joinNl (a ++ b) = joinNl a ++ '\n' :: joinNl b := by
  induction a with
  | nil => exact absurd rfl ha
  | cons l a ih =>
    cases a with
    | nil =>
      cases b with
      | nil => exact absurd rfl hb
      | cons b0 bs => simp [joinNl]
    | cons l2 as =>
      have hstep := ih (by simp)
      simp only [List.cons_append] at hstep ⊢
      simp only [joinNl] at hstep ⊢
      rw [hstep]
      simp

/-! ## Lemmas: heading matching and the section map -/

/-- The empty line is not a heading. -/
theorem headerMatch_nil : headerMatch [] = none := by simp [headerMatch]

/-- A line of pure whitespace is not a heading. -/
theorem headerMatch_of_ws (l : Str) (h : ∀ c ∈ l, isWs c = true) : headerMatch l = none := by
  cases l with
  | nil => exact headerMatch_nil
  | cons c rest =>
    have hc : isWs c = true := h c (List.mem_cons_self _ _)
    have hch : (c == '#') = false := by
      revert hc
      simp only [isWs, Bool.or_eq_true, decide_eq_true_eq]
      rintro (((rfl | rfl) | rfl) | rfl) <;> rfl
    simp [headerMatch, List.takeWhile_cons, hch]

/-- A matched heading name is nonempty. -/
theorem headerMatch_some_ne_empty (l k : Str) (h : headerMatch l = some k) :
    k.isEmpty = false := by
  simp only [headerMatch] at h
  split at h
  · simp at h
  · split at h
    · rename_i htl
      simp only [Option.some.injEq] at h
      subst h
      simpa using htl
    · split at h
      · rename_i hlen
        simp only [Option.some.injEq] at h
        subst h
        rw [List.isEmpty_eq_false]
        intro he
        have hlen2 := congrArg List.length he
        rw [List.length_drop] at hlen2
        simp only [List.length_nil] at hlen2
        omega
      · simp at h

/-- Setting an absent key appends the entry. -/
theorem mapSet_of_not_has (k v : Str) (m : SectionMap) (h : mapHas m k = false) :
    mapSet k v m = m ++ [(k, v)] := by
  induction m with
  | nil => rfl
  | cons p rest ih =>
    obtain ⟨k2, v2⟩ := p
    simp only [mapHas, List.any_cons, Bool.or_eq_false_iff] at h
    have hk2 : ¬ k2 = k := by
      intro he; subst he; simp at h
    simp only [mapSet, if_neg hk2, List.cons_append, List.cons.injEq, true_and]
    exact ih (by simpa [mapHas] using h.2)

/-- Setting a present key keeps the key sequence unchanged. -/
theorem mapSet_keys_of_has (k v : Str) (m : SectionMap) (h : mapHas m k = true) :
    (mapSet k v m).map Prod.fst = m.map Prod.fst := by
  induction m with
  | nil => simp [mapHas] at h
  | cons p rest ih =>
    obtain ⟨k2, v2⟩ := p
    by_cases hk2 : k2 = k
    · subst hk2; simp [mapSet]
    · simp only [mapHas, List.any_cons, Bool.or_eq_true] at h
      rcases h with h | h
      · exact absurd (by simpa using h) hk2
      · simp only [mapSet, if_neg hk2, List.map_cons]
        rw [ih (by simpa [mapHas] using h)]

/-- Membership view of `mapHas`. -/
theorem mapHas_iff (m : SectionMap) (k : Str) :
    mapHas m k = true ↔ k ∈ m.map Prod.fst := by
  induction m with
  | nil => simp [mapHas]
  | cons p rest ih =>
    obtain ⟨k2, v2⟩ := p
    simp only [mapHas, List.any_cons, Bool.or_eq_true, List.map_cons, List.mem_cons]
    constructor
    · rintro (hh | hh)
      · exact Or.inl ((by simpa using hh : k2 = k).symm)
      · exact Or.inr (ih.mp hh)
    · rintro (hh | hh)
      · exact Or.inl (by simpa using hh.symm)
      · exact Or.inr (ih.mpr hh)

/-- Value read back after setting the same key. -/
theorem mapGet_mapSet_self (k v : Str) (m : SectionMap) :
    mapGet (mapSet k v m) k = some v := by
  induction m with
  | nil => simp [mapSet, mapGet]
  | cons p rest ih =>
    obtain ⟨k2, v2⟩ := p
    by_cases hk2 : k2 = k
    · subst hk2; simp [mapSet, mapGet]
    · simp only [mapSet, if_neg hk2]
      simp only [mapGet, List.find?_cons]
      have : (k2 == k) = false := by simpa using hk2
      simp only [this]
      exact ih

/-- Other keys are unaffected by a set. -/
theorem mapGet_mapSet_other (k v k2 : Str) (m : SectionMap) (h : k2 ≠ k) :
    mapGet (mapSet k v m) k2 = mapGet m k2 := by
  have hkk2 : (k == k2) = false := by simpa using fun he => h he.symm
  induction m with
  | nil => simp [mapSet, mapGet, List.find?_cons, hkk2]
  | cons p rest ih =>
    obtain ⟨k3, v3⟩ := p
    by_cases hk3 : k3 = k
    · rw [hk3]
      simp [mapSet, mapGet, List.find?_cons, hkk2]
    · simp only [mapSet, if_neg hk3]
      simp only [mapGet, List.find?_cons]
      cases hk32 : (k3 == k2) with
      | true => simp
      | false => simpa [mapGet] using ih

/-! ## Lemmas: the section-parsing fold -/

/-- Non-heading lines only accumulate into the content buffer. -/
theorem foldl_sectStep_no_heads (ls : List Str) (st : SectState)
    (h : ∀ l ∈ ls, headerMatch l = none) :
    ls.foldl sectStep st = { st with buf := st.buf ++ ls } := by
  induction ls generalizing st with
  | nil => simp
  | cons l ls ih =>
    have hl := h l (List.mem_cons_self _ _)
    simp only [List.foldl_cons, sectStep, hl]
    rw [ih _ (fun x hx => h x (List.mem_cons_of_mem _ hx))]
    simp

/-- While still in the preamble (empty current section), the content buffer
never influences the final section map. -/
theorem flushSect_foldl_preamble (ls : List Str) (acc : SectionMap) (b1 b2 : List Str) :
    flushSect (ls.foldl sectStep { acc := acc, cur := [], buf := b1 }) =
      flushSect (ls.foldl sectStep { acc := acc, cur := [], buf := b2 }) := by
  induction ls generalizing b1 b2 with
  | nil => simp [flushSect]
  | cons l ls ih =>
    simp only [List.foldl_cons, sectStep]
    cases h : headerMatch l with
    | some name => simp [flushSect]
    | none => exact ih _ _

/-- The accumulated section map always has pairwise-distinct keys. -/
theorem mapSet_keys_nodup (k v : Str) (m : SectionMap) (h : (m.map Prod.fst).Nodup) :
    ((mapSet k v m).map Prod.fst).Nodup := by
  cases hh : mapHas m k with
  | true => rw [mapSet_keys_of_has k v m hh]; exact h
  | false =>
    rw [mapSet_of_not_has k v m hh]
    rw [List.map_append]
    simp only [List.map_cons, List.map_nil]
    rw [List.nodup_append]
    refine ⟨h, List.nodup_singleton _, ?_⟩
    intro x hx
    simp only [List.mem_singleton]
    intro he
    subst he
    exact absurd ((mapHas_iff m x).mpr hx) (by simp [hh])

/-- Flushing preserves distinct keys. -/
theorem flushSect_keys_nodup (st : SectState) (h : (st.acc.map Prod.fst).Nodup) :
    ((flushSect st).map Prod.fst).Nodup := by
  unfold flushSect
  split
  · exact h
  · exact mapSet_keys_nodup _ _ _ h

/-- The fold preserves distinct keys of the accumulator. -/
theorem foldl_sectStep_keys_nodup (ls : List Str) (st : SectState)
    (h : (st.acc.map Prod.fst).Nodup) :
    (((ls.foldl sectStep st).acc).map Prod.fst).Nodup := by
  induction ls generalizing st with
  | nil => exact h
  | cons l ls ih =>
    simp only [List.foldl_cons, sectStep]
    cases hm : headerMatch l with
    | some name => exact ih _ (flushSect_keys_nodup st h)
    | none => exact ih _ h

/-- Keys of a parsed section map are pairwise distinct. -/
theorem parseMarkdownSections_keys_nodup (c : Str) :
    ((parseMarkdownSections c).map Prod.fst).Nodup := by
  unfold parseMarkdownSections
  exact flushSect_keys_nodup _ (foldl_sectStep_keys_nodup _ _ (by simp))

/-- All values of `mapSet` with a trim-stable value on a trim-stable map stay
trim-stable. -/
theorem mapSet_values_trim (k v : Str) (m : SectionMap)
    (hm : ∀ kv ∈ m, trimChars kv.2 = kv.2) (hv : trimChars v = v) :
    ∀ kv ∈ mapSet k v m, trimChars kv.2 = kv.2 := by
  induction m with
  | nil => simpa [mapSet]
  | cons p rest ih =>
    obtain ⟨k2, v2⟩ := p
    simp only [mapSet]
    split
    · intro kv hkv
      rcases List.mem_cons.mp hkv with rfl | hkv
      · exact hv
      · exact hm kv (List.mem_cons_of_mem _ hkv)
    · intro kv hkv
      rcases List.mem_cons.mp hkv with rfl | hkv
      · exact hm _ (List.mem_cons_self _ _)
      · exact ih (fun x hx => hm x (List.mem_cons_of_mem _ hx)) kv hkv

/-- Flushing inserts a trimmed (hence trim-stable) value. -/
theorem flushSect_values_trim (st : SectState)
    (h : ∀ kv ∈ st.acc, trimChars kv.2 = kv.2) :
    ∀ kv ∈ flushSect st, trimChars kv.2 = kv.2 := by
  unfold flushSect
  split
  · exact h
  · exact mapSet_values_trim _ _ _ h (trimChars_idem _)

/-- The fold keeps all accumulated values trim-stable. -/
theorem foldl_sectStep_values_trim (ls : List Str) (st : SectState)
    (h : ∀ kv ∈ st.acc, trimChars kv.2 = kv.2) :
    ∀ kv ∈ (ls.foldl sectStep st).acc, trimChars kv.2 = kv.2 := by
  induction ls generalizing st with
  | nil => exact h
  | cons l ls ih =>
    simp only [List.foldl_cons, sectStep]
    cases hm : headerMatch l with
    | some name => exact ih _ (flushSect_values_trim st h)
    | none => exact ih _ h

/-- Values of a parsed section map are trim-stable. -/
theorem parseMarkdownSections_values_trim (c : Str) :
    ∀ kv ∈ parseMarkdownSections c, trimChars kv.2 = kv.2 := by
  unfold parseMarkdownSections
  exact flushSect_values_trim _ (foldl_sectStep_values_trim _ _ (by simp))

/-- Splitting a string that begins with a newline. -/
theorem splitNl_cons_nl (x : Str) : splitNl ('\n' :: x) = [] :: splitNl x := by
  simp [splitNl]

/-- Joining after prepending an empty line prepends a newline. -/
theorem joinNl_nil_cons (ls : List Str) (h : ls ≠ []) :
    joinNl ([] :: ls) = '\n' :: joinNl ls := by
  cases ls with
  | nil => exact absurd rfl h
  | cons l ls2 => simp [joinNl]

/-- `mapHas` distributes over append. -/
theorem mapHas_append (a b : SectionMap) (k : Str) :
    mapHas (a ++ b) k = (mapHas a k || mapHas b k) := by
  simp [mapHas, List.any_append]

/-- Line-level view of the rebuilt body (keys contain no newline). -/
theorem splitNl_joinSections (m : SectionMap) (hknl : ∀ kv ∈ m, '\n' ∉ kv.1) :
    m ≠ [] → splitNl (joinSections m) = renderLines m := by
  induction m with
  | nil => intro h; exact absurd rfl h
  | cons p rest ih =>
    intro _
    obtain ⟨k, v⟩ := p
    have hkv := hknl (k, v) (List.mem_cons_self _ _)
    have hk : '\n' ∉ ('#' :: ' ' :: k) := by
      simp only [List.mem_cons, not_or]
      exact ⟨by decide, by decide, hkv⟩
    cases rest with
    | nil =>
      show splitNl (sectionBlock k v) = _
      unfold sectionBlock
      rw [show ('#' :: ' ' :: k ++ '\n' :: '\n' :: v) =
            (('#' :: ' ' :: k) ++ '\n' :: ('\n' :: v)) by simp]
      rw [splitNl_append_nl, splitNl_no_nl _ hk, splitNl_cons_nl]
      simp [renderLines]
    | cons p2 rest2 =>
      have hrec := ih (fun kv hkv2 => hknl kv (List.mem_cons_of_mem _ hkv2)) (by simp)
      show splitNl (sectionBlock k v ++ '\n' :: '\n' :: joinSections (p2 :: rest2)) = _
      unfold sectionBlock
      rw [show (('#' :: ' ' :: k ++ '\n' :: '\n' :: v) ++
              '\n' :: '\n' :: joinSections (p2 :: rest2)) =
            (('#' :: ' ' :: k) ++
              '\n' :: ('\n' :: (v ++ '\n' :: ('\n' :: joinSections (p2 :: rest2))))) by simp]
      rw [splitNl_append_nl, splitNl_no_nl _ hk, splitNl_cons_nl, splitNl_append_nl,
        splitNl_cons_nl, hrec]
      simp [renderLines]

/-- Flushing a state with a nonempty current section. -/
theorem flushSect_cur_ne (acc : SectionMap) (k : Str) (buf : List Str)
    (h : k.isEmpty = false) :
    flushSect { acc := acc, cur := k, buf := buf } = mapSet k (trimChars (joinNl buf)) acc := by
  simp [flushSect, h]

/-- Folding the parser over a rebuilt body: each section re-parses to its
trimmed content, appended in order behind whatever was already flushed. -/
theorem flushSect_foldl_renderLines (m : SectionMap) (st : SectState)
    (hkeys : ∀ kv ∈ m, headerMatch ('#' :: ' ' :: kv.1) = some kv.1)
    (hvals : ∀ kv ∈ m, headingFree kv.2)
    (hnd : (m.map Prod.fst).Nodup)
    (hfresh : ∀ kv ∈ m, mapHas (flushSect st) kv.1 = false) :
    flushSect ((renderLines m).foldl sectStep st) =
      flushSect st ++ m.map (fun kv => (kv.1, trimChars kv.2)) := by
  induction m generalizing st with
  | nil => simp [renderLines]
  | cons p rest ih =>
    obtain ⟨k, v⟩ := p
    have hk : headerMatch ('#' :: ' ' :: k) = some k := by
      simpa using hkeys (k, v) (List.mem_cons_self _ _)
    have hv : headingFree v := by
      simpa [headingFree] using hvals (k, v) (List.mem_cons_self _ _)
    have hkemp : k.isEmpty = false := headerMatch_some_ne_empty _ _ hk
    have hfr : mapHas (flushSect st) k = false := by
      simpa using hfresh (k, v) (List.mem_cons_self _ _)
    have hsne := splitNl_ne_nil v
    cases rest with
    | nil =>
      simp only [renderLines, List.foldl_cons]
      rw [show sectStep st ('#' :: ' ' :: k) = { acc := flushSect st, cur := k, buf := [] } by
        simp [sectStep, hk]]
      rw [show sectStep { acc := flushSect st, cur := k, buf := [] } ([] : Str) =
            { acc := flushSect st, cur := k, buf := [[]] } by
        simp [sectStep, headerMatch_nil]]
      rw [foldl_sectStep_no_heads (splitNl v) _ (fun l hl => hv l hl)]
      show flushSect { acc := flushSect st, cur := k, buf := [] :: splitNl v } = _
      rw [flushSect_cur_ne _ _ _ hkemp]
      rw [joinNl_nil_cons _ hsne, joinNl_splitNl,
        trimChars_cons_ws '\n' v (by decide), mapSet_of_not_has _ _ _ hfr]
      simp
    | cons p2 rest2 =>
      simp only [renderLines, List.foldl_cons]
      rw [show sectStep st ('#' :: ' ' :: k) = { acc := flushSect st, cur := k, buf := [] } by
        simp [sectStep, hk]]
      rw [show sectStep { acc := flushSect st, cur := k, buf := [] } ([] : Str) =
            { acc := flushSect st, cur := k, buf := [[]] } by
        simp [sectStep, headerMatch_nil]]
      rw [show (splitNl v ++ [] :: renderLines (p2 :: rest2)) =
            ((splitNl v ++ [[]]) ++ renderLines (p2 :: rest2)) by simp]
      rw [List.foldl_append]
      rw [foldl_sectStep_no_heads (splitNl v ++ [[]]) _ ?hnh2]
      case hnh2 =>
        intro l hl
        rcases List.mem_append.mp hl with hl | hl
        · exact hv l hl
        · rcases List.mem_singleton.mp hl with rfl
          exact headerMatch_nil
      have hflush2 : flushSect { acc := flushSect st, cur := k, buf := [[]] ++ (splitNl v ++ [[]]) } =
          flushSect st ++ [(k, trimChars v)] := by
        rw [flushSect_cur_ne _ _ _ hkemp]
        rw [show ([[]] ++ (splitNl v ++ [[]]) : List Str) = (([] :: splitNl v) ++ [[]]) by simp]
        rw [joinNl_append ([] :: splitNl v) [[]] (by simp) (by simp)]
        rw [joinNl_nil_cons _ hsne, joinNl_splitNl]
        rw [show joinNl [([] : Str)] = ([] : Str) from rfl]
        rw [trimChars_append_ws ('\n' :: v) '\n' (by decide)]
        rw [trimChars_cons_ws '\n' v (by decide)]
        rw [mapSet_of_not_has _ _ _ hfr]
      have hnd2 : k ∉ ((p2 :: rest2).map Prod.fst) ∧ (((p2 :: rest2).map Prod.fst)).Nodup := by
        simpa using hnd
      rw [ih _ (fun kv hkv => hkeys kv (List.mem_cons_of_mem _ hkv))
            (fun kv hkv => hvals kv (List.mem_cons_of_mem _ hkv)) hnd2.2 ?hfresh2]
      case hfresh2 =>
        intro kv hkv
        rw [hflush2, mapHas_append]
        have h1 : mapHas (flushSect st) kv.1 = false := hfresh kv (List.mem_cons_of_mem _ hkv)
        have hmem : kv.1 ∈ (p2 :: rest2).map Prod.fst := List.mem_map_of_mem _ hkv
        have hne : kv.1 ≠ k := by
          intro he
          exact hnd2.1 (he ▸ hmem)
        have h2 : (k == kv.1) = false := by
          simpa using fun he => hne he.symm
        rw [h1]
        simp [mapHas, h2]
      rw [hflush2]
      simp

/-- Re-parsing a rebuilt body recovers the section map with trimmed values. -/
theorem parseMarkdownSections_joinSections (m : SectionMap)
    (hkeys : ∀ kv ∈ m, headerMatch ('#' :: ' ' :: kv.1) = some kv.1)
    (hknl : ∀ kv ∈ m, '\n' ∉ kv.1)
    (hvals : ∀ kv ∈ m, headingFree kv.2)
    (hnd : (m.map Prod.fst).Nodup)
    (hne : m ≠ []) :
    parseMarkdownSections (joinSections m) = m.map (fun kv => (kv.1, trimChars kv.2)) := by
  unfold parseMarkdownSections
  rw [splitNl_joinSections m hknl hne]
  rw [flushSect_foldl_renderLines m _ hkeys hvals hnd ?hfresh]
  case hfresh => intro kv hkv; simp [flushSect, mapHas]
  simp [flushSect]

/-- Entries of `mapSet` are the new entry or old entries. -/
theorem mem_mapSet (k v : Str) (m : SectionMap) :
    ∀ kv ∈ mapSet k v m, kv = (k, v) ∨ kv ∈ m := by
  induction m with
  | nil => simp [mapSet]
  | cons p rest ih =>
    obtain ⟨k2, v2⟩ := p
    simp only [mapSet]
    split
    · intro kv hkv
      rcases List.mem_cons.mp hkv with rfl | hkv
      · exact Or.inl rfl
      · exact Or.inr (List.mem_cons_of_mem _ hkv)
    · intro kv hkv
      rcases List.mem_cons.mp hkv with rfl | hkv
      · exact Or.inr (List.mem_cons_self _ _)
      · rcases ih kv hkv with h | h
        · exact Or.inl h
        · exact Or.inr (List.mem_cons_of_mem _ h)

/-- A successful lookup exhibits a member. -/
theorem mapGet_mem (m : SectionMap) (k v : Str) (h : mapGet m k = some v) : (k, v) ∈ m := by
  induction m with
  | nil => simp [mapGet] at h
  | cons p rest ih =>
    obtain ⟨k2, v2⟩ := p
    simp only [mapGet, List.find?_cons] at h
    cases hk2 : (k2 == k) with
    | true =>
      rw [hk2] at h
      simp only [Option.map_some] at h
      have hk2e : k2 = k := by simpa using hk2
      have hv2 : v2 = v := by simpa using h
      subst hk2e; subst hv2
      exact List.mem_cons_self _ _
    | false =>
      rw [hk2] at h
      exact List.mem_cons_of_mem _ (ih h)

/-- A present key has a value. -/
theorem mapHas_exists (m : SectionMap) (k : Str) (h : mapHas m k = true) :
    ∃ v, mapGet m k = some v := by
  induction m with
  | nil => simp [mapHas] at h
  | cons p rest ih =>
    obtain ⟨k2, v2⟩ := p
    simp only [mapGet, List.find?_cons]
    cases hk2 : (k2 == k) with
    | true => exact ⟨v2, rfl⟩
    | false =>
      simp only [mapHas, List.any_cons, hk2, Bool.false_or] at h
      exact ih h

/-- `mapSet` never empties a map. -/
theorem mapSet_ne_nil (k v : Str) (m : SectionMap) : mapSet k v m ≠ [] := by
  cases m with
  | nil => simp [mapSet]
  | cons p rest =>
    obtain ⟨k2, v2⟩ := p
    simp only [mapSet]
    split <;> simp

/-- Trimming all values commutes with a set. -/
theorem mapSet_map_trim (k v : Str) (m : SectionMap) :
    (mapSet k v m).map (fun kv => (kv.1, trimChars kv.2)) =
      mapSet k (trimChars v) (m.map (fun kv => (kv.1, trimChars kv.2))) := by
  induction m with
  | nil => simp [mapSet]
  | cons p rest ih =>
    obtain ⟨k2, v2⟩ := p
    simp only [mapSet, List.map_cons]
    by_cases hk2 : k2 = k
    · simp [hk2, mapSet]
    · simp only [if_neg hk2, List.map_cons, mapSet, if_neg hk2]
      rw [ih]

/-- A map of trim-stable values is fixed by trimming its values. -/
theorem map_trim_self (m : SectionMap) (h : ∀ kv ∈ m, trimChars kv.2 = kv.2) :
    m.map (fun kv => (kv.1, trimChars kv.2)) = m := by
  induction m with
  | nil => rfl
  | cons p rest ih =>
    obtain ⟨k2, v2⟩ := p
    simp only [List.map_cons]
    rw [h (k2, v2) (List.mem_cons_self _ _)]
    rw [ih (fun kv hkv => h kv (List.mem_cons_of_mem _ hkv))]

/-- The empty fragment has no heading lines. -/
theorem headingFree_nil : headingFree ([] : Str) := by
  intro l hl
  simp only [splitNl, List.mem_singleton] at hl
  subst hl
  exact headerMatch_nil

/-- Combining heading-free fragments stays heading-free. -/
theorem headingFree_combine (op : SectionOp) (a b : Str)
    (ha : headingFree a) (hb : headingFree b) : headingFree (combineContent op a b) := by
  have key : ∀ x y : Str, headingFree x → headingFree y →
      headingFree (x ++ '\n' :: '\n' :: y) := by
    intro x y hx hy l hl
    rw [show (x ++ '\n' :: '\n' :: y) = (x ++ '\n' :: ('\n' :: y)) from rfl,
      splitNl_append_nl, splitNl_cons_nl] at hl
    rcases List.mem_append.mp hl with hl | hl
    · exact hx l hl
    · rcases List.mem_cons.mp hl with rfl | hl
      · exact headerMatch_nil
      · exact hy l hl
  cases op with
  | append => exact key a b ha hb
  | prepend => exact key b a hb ha
  | replace => exact hb

/-- A trailing blank line in the buffer does not change the flushed map. -/
theorem flushSect_buf_blank (st : SectState) :
    flushSect { st with buf := st.buf ++ [[]] } = flushSect st := by
  unfold flushSect
  cases hcur : st.cur.isEmpty with
  | true => simp [hcur]
  | false =>
    simp only [hcur, Bool.false_eq_true, if_false]
    cases hb : st.buf with
    | nil => rfl
    | cons b bs =>
      rw [joinNl_append (b :: bs) [[]] (by simp) (by simp)]
      rw [show joinNl [([] : Str)] = ([] : Str) from rfl]
      rw [show (joinNl (b :: bs) ++ '\n' :: ([] : Str)) =
            (joinNl (b :: bs) ++ ['\n']) from rfl]
      rw [trimChars_append_ws _ '\n' (by decide)]

/-- Updating an EXISTING section rebuilds the body so that re-parsing yields
exactly the original section map with the single targeted entry replaced by
the (trimmed) combined content: all other sections' headings and contents,
and the first-appearance order, are preserved (at heading level 1). -/
theorem updateContentSection_existing (body s c : Str) (mode : SectionOp)
    (hmem : mapHas (parseMarkdownSections body) s = true)
    (hkeys : ∀ kv ∈ parseMarkdownSections body,
      headerMatch ('#' :: ' ' :: kv.1) = some kv.1 ∧ '\n' ∉ kv.1)
    (hvals : ∀ kv ∈ parseMarkdownSections body, headingFree kv.2)
    (hc : headingFree c) :
    parseMarkdownSections (updateContentSection body s c mode) =
      mapSet s
        (trimChars (combineContent mode ((mapGet (parseMarkdownSections body) s).getD []) c))
        (parseMarkdownSections body) := by
  obtain ⟨ex, hex⟩ := mapHas_exists _ s hmem
  have hgetD : (mapGet (parseMarkdownSections body) s).getD [] = ex := by rw [hex]; rfl
  have hex_mem : (s, ex) ∈ parseMarkdownSections body := mapGet_mem _ s ex hex
  have hstep : updateContentSection body s c mode =
      joinSections (mapSet s (combineContent mode ex c) (parseMarkdownSections body)) := by
    simp only [updateContentSection]
    rw [hmem, hgetD]
    simp
  rw [hstep, hgetD]
  rw [parseMarkdownSections_joinSections _ ?k1 ?k2 ?k3 ?k4 (mapSet_ne_nil _ _ _)]
  · rw [mapSet_map_trim]
    rw [map_trim_self _ (parseMarkdownSections_values_trim body)]
  case k1 =>
    intro kv hkv
    rcases mem_mapSet _ _ _ kv hkv with rfl | hkv2
    · exact (hkeys (s, ex) hex_mem).1
    · exact (hkeys kv hkv2).1
  case k2 =>
    intro kv hkv
    rcases mem_mapSet _ _ _ kv hkv with rfl | hkv2
    · exact (hkeys (s, ex) hex_mem).2
    · exact (hkeys kv hkv2).2
  case k3 =>
    intro kv hkv
    rcases mem_mapSet _ _ _ kv hkv with rfl | hkv2
    · exact headingFree_combine mode ex c (hvals (s, ex) hex_mem) hc
    · exact hvals kv hkv2
  case k4 =>
    exact mapSet_keys_nodup _ _ _ (parseMarkdownSections_keys_nodup body)

/-- Updating a MISSING section (any mode) appends a level-1 heading with the
new content at the very end of the document, and re-parsing shows the new
section as the last entry with exactly the (trimmed) new content, every
pre-existing section untouched. -/
theorem updateContentSection_create (body s c : Str) (mode : SectionOp)
    (habs : mapHas (parseMarkdownSections body) s = false)
    (hkey : headerMatch ('#' :: ' ' :: s) = some s)
    (hknl : '\n' ∉ s)
    (hc : headingFree c) :
    updateContentSection body s c mode =
        body ++ ('\n' :: '\n' :: '#' :: ' ' :: s) ++ ('\n' :: '\n' :: c) ∧
    parseMarkdownSections (updateContentSection body s c mode) =
        parseMarkdownSections body ++ [(s, trimChars c)] := by
  have hsemp : s.isEmpty = false := headerMatch_some_ne_empty _ _ hkey
  have hhdrnl : '\n' ∉ ('#' :: ' ' :: s) := by
    simp only [List.mem_cons, not_or]
    exact ⟨by decide, by decide, hknl⟩
  have hstep : updateContentSection body s c mode =
      body ++ ('\n' :: '\n' :: '#' :: ' ' :: s) ++ ('\n' :: '\n' :: c) := by
    simp only [updateContentSection]
    rw [habs]
    simp
  refine ⟨hstep, ?_⟩
  rw [hstep]
  rw [show (body ++ ('\n' :: '\n' :: '#' :: ' ' :: s) ++ ('\n' :: '\n' :: c)) =
        (body ++ '\n' :: ('\n' :: (('#' :: ' ' :: s) ++ '\n' :: ('\n' :: c)))) by simp]
  unfold parseMarkdownSections
  rw [splitNl_append_nl, splitNl_cons_nl, splitNl_append_nl, splitNl_no_nl _ hhdrnl,
    splitNl_cons_nl]
  rw [show (([] : Str) :: ([('#' :: ' ' :: s)] ++ [] :: splitNl c)) =
        (([([] : Str), ('#' :: ' ' :: s)]) ++ ([] :: splitNl c)) by simp]
  rw [List.foldl_append, List.foldl_append]
  rw [show ∀ st : SectState, List.foldl sectStep st [([] : Str), ('#' :: ' ' :: s)] =
        { acc := flushSect st, cur := s, buf := [] } from ?steps]
  case steps =>
    intro st
    simp only [List.foldl_cons, List.foldl_nil]
    rw [show sectStep st ([] : Str) = { st with buf := st.buf ++ [[]] } by
      simp [sectStep, headerMatch_nil]]
    rw [show sectStep { st with buf := st.buf ++ [[]] } ('#' :: ' ' :: s) =
          { acc := flushSect { st with buf := st.buf ++ [[]] }, cur := s, buf := [] } by
      simp [sectStep, hkey]]
    rw [flushSect_buf_blank]
  rw [foldl_sectStep_no_heads ([] :: splitNl c) _ ?nh]
  case nh =>
    intro l hl
    rcases List.mem_cons.mp hl with rfl | hl
    · exact headerMatch_nil
    · exact hc l hl
  show flushSect { acc := _, cur := s, buf := [] :: splitNl c } = _
  rw [flushSect_cur_ne _ _ _ hsemp]
  rw [joinNl_nil_cons _ (splitNl_ne_nil c), joinNl_splitNl,
    trimChars_cons_ws '\n' c (by decide)]
  exact mapSet_of_not_has _ _ _ habs

/-! ## Lemmas: the YAML codec -/

/-- Digit characters are digits. -/
theorem isDigit_digitChar (d : Nat) (h : d < 10) : isDigit (digitChar d) = true := by
  interval_cases d <;> decide

/-- Digit characters decode to their digit. -/
theorem digitVal_digitChar (d : Nat) (h : d < 10) : digitVal (digitChar d) = d := by
  interval_cases d <;> decide

/-- A digit character is not a newline. -/
theorem ne_nl_of_isDigit (c : Char) (h : isDigit c = true) : c ≠ '\n' := by
  rintro rfl
  exact absurd h (by decide)

/-- A digit character is not whitespace. -/
theorem isWs_eq_false_of_isDigit (c : Char) (h : isDigit c = true) : isWs c = false := by
  simp only [isWs, Bool.or_eq_false_iff, decide_eq_false_iff_not]
  refine ⟨⟨⟨?_, ?_⟩, ?_⟩, ?_⟩ <;> rintro rfl <;> exact absurd h (by decide)

/-- Digits produced by the auxiliary digit expansion are below ten. -/
theorem natDigitsAux_lt (fuel n : Nat) (h : n < fuel) : ∀ d ∈ natDigitsAux fuel n, d < 10 := by
  induction fuel generalizing n with
  | zero => omega
  | succ fuel ih =>
    intro d hd
    simp only [natDigitsAux] at hd
    split at hd
    · rename_i h10
      rcases List.mem_singleton.mp hd with rfl
      exact h10
    · rename_i h10
      rcases List.mem_cons.mp hd with rfl | hd
      · omega
      · have hlt : n / 10 < fuel := by
          have := Nat.div_lt_self (show 0 < n by omega) (show (1 : Nat) < 10 by omega)
          omega
        exact ih (n / 10) hlt d hd

/-- The digit expansion is never empty. -/
theorem natDigitsAux_ne_nil (fuel n : Nat) (h : 0 < fuel) : natDigitsAux fuel n ≠ [] := by
  cases fuel with
  | zero => omega
  | succ fuel =>
    simp only [natDigitsAux]
    split <;> simp

/-- Reading the digit expansion back (most significant first) recovers the
number. -/
theorem natDigitsAux_val (fuel n : Nat) (h : n < fuel) :
    ((natDigitsAux fuel n).reverse).foldl (fun a d => a * 10 + d) 0 = n := by
  induction fuel generalizing n with
  | zero => omega
  | succ fuel ih =>
    simp only [natDigitsAux]
    split
    · simp
    · rename_i h10
      rw [List.reverse_cons, List.foldl_append]
      have hlt : n / 10 < fuel := by
        have := Nat.div_lt_self (show 0 < n by omega) (show (1 : Nat) < 10 by omega)
        omega
      rw [ih (n / 10) hlt]
      simp only [List.foldl_cons, List.foldl_nil]
      have := Nat.div_add_mod n 10
      omega

/-- Decoding digit characters pointwise. -/
theorem foldl_digitChars (l : List Nat) (h : ∀ d ∈ l, d < 10) (a : Nat) :
    (l.map digitChar).foldl (fun acc c => acc * 10 + digitVal c) a =
      l.foldl (fun acc d => acc * 10 + d) a := by
  induction l generalizing a with
  | nil => rfl
  | cons d l ih =>
    simp only [List.map_cons, List.foldl_cons]
    rw [digitVal_digitChar d (h d (List.mem_cons_self _ _))]
    exact ih (fun x hx => h x (List.mem_cons_of_mem _ hx)) _

/-- The decimal rendering is nonempty. -/
theorem natChars_ne_nil (n : Nat) : natChars n ≠ [] := by
  intro he
  simp only [natChars, natDigitsRev, List.map_eq_nil_iff, List.reverse_eq_nil_iff] at he
  exact natDigitsAux_ne_nil (n + 1) n (by omega) he

/-- All characters of the decimal rendering are digits. -/
theorem natChars_digits (n : Nat) : ∀ c ∈ natChars n, isDigit c = true := by
  intro c hc
  simp only [natChars, natDigitsRev, List.mem_map, List.mem_reverse] at hc
  obtain ⟨d, hd, rfl⟩ := hc
  exact isDigit_digitChar d (natDigitsAux_lt _ _ (by omega) d hd)

/-- Taking while `p` holds skips over an all-`p` prefix. -/
theorem takeWhile_append_all (p : Char → Bool) (a b : Str) (h : ∀ c ∈ a, p c = true) :
    (a ++ b).takeWhile p = a ++ b.takeWhile p := by
  induction a with
  | nil => simp
  | cons c rest ih =>
    simp only [List.cons_append, List.takeWhile_cons, h c (List.mem_cons_self _ _), if_pos]
    rw [ih (fun x hx => h x (List.mem_cons_of_mem _ hx))]

/-- Parsing the decimal rendering in front of a non-digit continuation. -/
theorem parseNatChars_natChars (n : Nat) (rest : Str) (hrest : stopOK rest) :
    parseNatChars (natChars n ++ rest) = some (n, rest) := by
  have hall := natChars_digits n
  have hrtake : rest.takeWhile isDigit = [] := by
    cases rest with
    | nil => rfl
    | cons r rs =>
      have := hrest r (by simp)
      simp [List.takeWhile_cons, this]
  have hrdrop : rest.dropWhile isDigit = rest := by
    cases rest with
    | nil => rfl
    | cons r rs =>
      have := hrest r (by simp)
      simp [List.dropWhile_cons, this]
  have htake : (natChars n ++ rest).takeWhile isDigit = natChars n := by
    rw [takeWhile_append_all _ _ _ hall, hrtake]
    simp
  have hdrop : (natChars n ++ rest).dropWhile isDigit = rest := by
    rw [dropWhile_append_of_nil _ _ _ (List.dropWhile_eq_nil_iff.mpr hall), hrdrop]
  simp only [parseNatChars, htake, hdrop]
  rw [if_neg (by simpa [List.isEmpty_iff] using natChars_ne_nil n)]
  simp only [natChars, natDigitsRev]
  rw [foldl_digitChars ((natDigitsAux (n + 1) n).reverse)
    (fun d hd => natDigitsAux_lt (n + 1) n (by omega) d (List.mem_reverse.mp hd)) 0]
  rw [natDigitsAux_val (n + 1) n (by omega)]

/-- Escaping removes newlines. -/
theorem escChar_no_nl (c : Char) : '\n' ∉ escChar c := by
  unfold escChar
  split_ifs with h1 h2 h3
  · decide
  · decide
  · decide
  · simp only [List.mem_singleton]
    exact fun he => h3 he.symm

/-- Escaped strings contain no newline. -/
theorem escapeChars_no_nl (s : Str) : '\n' ∉ escapeChars s := by
  induction s with
  | nil => simp [escapeChars]
  | cons c rest ih =>
    simp only [escapeChars, List.flatMap_cons, List.mem_append]
    rintro (h | h)
    · exact escChar_no_nl c h
    · exact ih (by simpa [escapeChars] using h)

/-- Parsing undoes escaping, up to the closing quote. -/
theorem parseStringTail_escape (s rest : Str) :
    parseStringTail (escapeChars s ++ '"' :: rest) = some (s, rest) := by
  induction s with
  | nil =>
    show parseStringTail ('"' :: rest) = some ([], rest)
    rw [parseStringTail.eq_def]
    simp
  | cons c s ih =>
    show parseStringTail ((escChar c ++ escapeChars s) ++ '"' :: rest) = _
    unfold escChar
    split_ifs with h1 h2 h3
    · subst h1
      show parseStringTail ('\\' :: '"' :: (escapeChars s ++ '"' :: rest)) = _
      rw [parseStringTail.eq_def]
      simp [ih]
    · subst h2
      show parseStringTail ('\\' :: '\\' :: (escapeChars s ++ '"' :: rest)) = _
      rw [parseStringTail.eq_def]
      simp [ih]
    · subst h3
      show parseStringTail ('\\' :: 'n' :: (escapeChars s ++ '"' :: rest)) = _
      rw [parseStringTail.eq_def]
      simp [ih]
    · show parseStringTail (c :: (escapeChars s ++ '"' :: rest)) = _
      rw [parseStringTail.eq_def]
      simp [ih, h1, h2]

/-- Every YAML value has positive size. -/
theorem ysize_pos (v : Yaml) : 0 < ysize v := by
  cases v <;> simp [ysize]

/-- Size of a list member. -/
theorem ysize_lt_of_mem_list (x : Yaml) (xs : List Yaml) (h : x ∈ xs) :
    ysize x < 1 + ysizeList xs := by
  induction xs with
  | nil => simp at h
  | cons y ys ih =>
    rcases List.mem_cons.mp h with rfl | h
    · simp [ysizeList]
      omega
    · have := ih h
      simp only [ysizeList]
      omega

/-- Size of a mapping member's value. -/
theorem ysize_lt_of_mem_pairs (kv : Str × Yaml) (kvs : List (Str × Yaml)) (h : kv ∈ kvs) :
    ysize kv.2 < 1 + ysizePairs kvs := by
  induction kvs with
  | nil => simp at h
  | cons p ps ih =>
    rcases List.mem_cons.mp h with rfl | h
    · simp [ysizePairs]
      omega
    · have := ih h
      simp only [ysizePairs]
      omega

/-- The decimal rendering of an integer contains no newline. -/
theorem intChars_no_nl (n : Int) : '\n' ∉ intChars n := by
  unfold intChars
  split
  · simp only [List.mem_cons, not_or]
    refine ⟨by decide, fun h => ?_⟩
    exact absurd rfl (ne_nl_of_isDigit _ (natChars_digits _ _ h)).symm
  · intro h
    exact absurd rfl (ne_nl_of_isDigit _ (natChars_digits _ _ h)).symm

/-- Element renderings contain no newline when the elements do not. -/
theorem dumpElems_no_nl (xs : List Yaml) (h : ∀ x ∈ xs, '\n' ∉ dumpYaml x) :
    '\n' ∉ dumpElems xs := by
  induction xs with
  | nil => simp [dumpElems]
  | cons x xs ih =>
    cases xs with
    | nil => simpa [dumpElems] using h x (List.mem_cons_self _ _)
    | cons y ys =>
      rw [show dumpElems (x :: y :: ys) = dumpYaml x ++ ',' :: ' ' :: dumpElems (y :: ys) by
        rw [dumpElems]
        simp]
      intro hmem
      rcases List.mem_append.mp hmem with hc | hc
      · exact h x (List.mem_cons_self _ _) hc
      · rcases List.mem_cons.mp hc with he | hc
        · exact absurd he (by decide)
        · rcases List.mem_cons.mp hc with he | hc
          · exact absurd he (by decide)
          · exact ih (fun z hz => h z (List.mem_cons_of_mem _ hz)) hc

/-- Pair renderings contain no newline when keys and values are clean. -/
theorem dumpPairs_no_nl (kvs : List (Str × Yaml)) (h : ∀ kv ∈ kvs, '\n' ∉ dumpYaml kv.2) :
    '\n' ∉ dumpPairs kvs := by
  induction kvs with
  | nil => simp [dumpPairs]
  | cons kv kvs ih =>
    obtain ⟨k, v⟩ := kv
    cases kvs with
    | nil =>
      rw [show dumpPairs [(k, v)] = ('"' :: (escapeChars k ++ ['"', ':', ' '])) ++ dumpYaml v by
        rw [dumpPairs]]
      intro hmem
      rcases List.mem_append.mp hmem with hc | hc
      · rcases List.mem_cons.mp hc with he | hc
        · exact absurd he (by decide)
        · rcases List.mem_append.mp hc with hc | hc
          · exact escapeChars_no_nl k hc
          · simp at hc
      · exact h (k, v) (List.mem_cons_self _ _) hc
    | cons kv2 kvs2 =>
      rw [show dumpPairs ((k, v) :: kv2 :: kvs2) =
            (('"' :: (escapeChars k ++ ['"', ':', ' '])) ++ dumpYaml v) ++
              ',' :: ' ' :: dumpPairs (kv2 :: kvs2) by
        rw [dumpPairs]
        simp]
      intro hmem
      rcases List.mem_append.mp hmem with hc | hc
      · rcases List.mem_append.mp hc with hc | hc
        · rcases List.mem_cons.mp hc with he | hc
          · exact absurd he (by decide)
          · rcases List.mem_append.mp hc with hc | hc
            · exact escapeChars_no_nl k hc
            · simp at hc
        · exact h (k, v) (List.mem_cons_self _ _) hc
      · rcases List.mem_cons.mp hc with he | hc
        · exact absurd he (by decide)
        · rcases List.mem_cons.mp hc with he | hc
          · exact absurd he (by decide)
          · exact ih (fun z hz => h z (List.mem_cons_of_mem _ hz)) hc

/-- The dump of any YAML value contains no newline. -/
theorem dumpYaml_no_nl (v : Yaml) : '\n' ∉ dumpYaml v := by
  have main : ∀ N : Nat, ∀ v : Yaml, ysize v ≤ N → '\n' ∉ dumpYaml v := by
    intro N
    induction N using Nat.strong_induction_on with
    | _ N ih =>
      intro v hv
      cases v with
      | str s =>
        rw [show dumpYaml (.str s) = '"' :: (escapeChars s ++ ['"']) by rw [dumpYaml]]
        intro hmem
        rcases List.mem_cons.mp hmem with he | hc
        · exact absurd he (by decide)
        · rcases List.mem_append.mp hc with hc | hc
          · exact escapeChars_no_nl s hc
          · simp at hc
      | num n =>
        rw [show dumpYaml (.num n) = intChars n by rw [dumpYaml]]
        exact intChars_no_nl n
      | bool b =>
        cases b <;> (rw [dumpYaml]; decide)
      | arr xs =>
        rw [show dumpYaml (.arr xs) = '[' :: (dumpElems xs ++ [']']) by rw [dumpYaml]]
        intro hmem
        rcases List.mem_cons.mp hmem with he | hc
        · exact absurd he (by decide)
        · rcases List.mem_append.mp hc with hc | hc
          · refine dumpElems_no_nl xs (fun x hx => ?_) hc
            have h1 := ysize_lt_of_mem_list x xs hx
            have h2 : ysize (Yaml.arr xs) = 1 + ysizeList xs := by rw [ysize]
            exact ih (ysize x) (by omega) x le_rfl
          · simp at hc
      | map kvs =>
        rw [show dumpYaml (.map kvs) = '\x7b' :: (dumpPairs kvs ++ ['\x7d']) by rw [dumpYaml]]
        intro hmem
        rcases List.mem_cons.mp hmem with he | hc
        · exact absurd he (by decide)
        · rcases List.mem_append.mp hc with hc | hc
          · refine dumpPairs_no_nl kvs (fun kv hkv => ?_) hc
            have h1 := ysize_lt_of_mem_pairs kv kvs hkv
            have h2 : ysize (Yaml.map kvs) = 1 + ysizePairs kvs := by rw [ysize]
            exact ih (ysize kv.2) (by omega) kv.2 le_rfl
          · simp at hc
  exact main (ysize v) v le_rfl

/-- The first character of a dump classifies the value kind. -/
theorem dumpYaml_head (v : Yaml) : ∃ c cs, dumpYaml v = c :: cs ∧
    (c = '"' ∨ c = 't' ∨ c = 'f' ∨ c = '[' ∨ c = '\x7b' ∨ c = '-' ∨ isDigit c = true) := by
  cases v with
  | str s => exact ⟨'"', escapeChars s ++ ['"'], by rw [dumpYaml], Or.inl rfl⟩
  | num n =>
    rw [show dumpYaml (.num n) = intChars n by rw [dumpYaml]]
    unfold intChars
    split
    · exact ⟨'-', natChars n.natAbs, rfl, by tauto⟩
    · cases hnc : natChars n.toNat with
      | nil => exact absurd hnc (natChars_ne_nil _)
      | cons c0 t =>
        refine ⟨c0, t, rfl, ?_⟩
        have : isDigit c0 = true :=
          natChars_digits n.toNat c0 (by rw [hnc]; exact List.mem_cons_self _ _)
        tauto
  | bool b =>
    cases b with
    | true => exact ⟨'t', ['r', 'u', 'e'], by rw [dumpYaml], by tauto⟩
    | false => exact ⟨'f', ['a', 'l', 's', 'e'], by rw [dumpYaml], by tauto⟩
  | arr xs => exact ⟨'[', dumpElems xs ++ [']'], by rw [dumpYaml], by tauto⟩
  | map kvs => exact ⟨'\x7b', dumpPairs kvs ++ ['\x7d'], by rw [dumpYaml], by tauto⟩

/-- The head of a dump is never whitespace nor a closing delimiter. -/
theorem dumpYaml_head_clean (v : Yaml) : ∃ c cs, dumpYaml v = c :: cs ∧
    isWs c = false ∧ c ≠ ']' ∧ c ≠ '\x7d' := by
  obtain ⟨c, cs, hd, hc⟩ := dumpYaml_head v
  refine ⟨c, cs, hd, ?_⟩
  rcases hc with rfl | rfl | rfl | rfl | rfl | rfl | h
  · exact ⟨by decide, by decide, by decide⟩
  · exact ⟨by decide, by decide, by decide⟩
  · exact ⟨by decide, by decide, by decide⟩
  · exact ⟨by decide, by decide, by decide⟩
  · exact ⟨by decide, by decide, by decide⟩
  · exact ⟨by decide, by decide, by decide⟩
  · refine ⟨isWs_eq_false_of_isDigit c h, ?_, ?_⟩ <;> rintro rfl <;> exact absurd h (by decide)

/-- A nonempty element rendering starts with its first element's dump. -/
theorem dumpElems_cons_eq (x : Yaml) (xs : List Yaml) :
    ∃ t, dumpElems (x :: xs) = dumpYaml x ++ t := by
  cases xs with
  | nil => exact ⟨[], by rw [dumpElems]; simp⟩
  | cons y ys => exact ⟨',' :: ' ' :: dumpElems (y :: ys), by rw [dumpElems]; simp⟩

/-- A digit-refuting head makes a valid number stop. -/
theorem stopOK_cons (c : Char) (h : isDigit c = false) (rest : Str) : stopOK (c :: rest) := by
  intro x hx
  simp only [List.head?_cons, Option.mem_def, Option.some.injEq] at hx
  subst hx
  exact h

/-- A digit is none of the other value-kind dispatch characters. -/
theorem isDigit_facts (c : Char) (h : isDigit c = true) :
    c ≠ '"' ∧ c ≠ 't' ∧ c ≠ 'f' ∧ c ≠ '[' ∧ c ≠ '\x7b' ∧ c ≠ '-' := by
  refine ⟨?_, ?_, ?_, ?_, ?_, ?_⟩ <;> rintro rfl <;> exact absurd h (by decide)

/-- A nonempty pair rendering starts with a quoted key. -/
theorem dumpPairs_cons_eq (k : Str) (v : Yaml) (kvs : List (Str × Yaml)) :
    ∃ t, dumpPairs ((k, v) :: kvs) =
      '"' :: ((escapeChars k ++ ['"', ':', ' ']) ++ (dumpYaml v ++ t)) := by
  cases kvs with
  | nil => exact ⟨[], by rw [dumpPairs]; simp⟩
  | cons kv2 kvs2 =>
    exact ⟨',' :: ' ' :: dumpPairs (kv2 :: kvs2), by rw [dumpPairs] <;> simp⟩

/-- Dispatch of the value parser on a `[` head character. -/
theorem parseYaml_bracket (fuel : Nat) (cs : Str) :
    parseYaml (fuel + 1) ('[' :: cs)
      = if cs.head? = some ']' then some (.arr [], cs.tail)
        else (parseElemsY fuel cs).map (fun r => (Yaml.arr r.1, r.2)) := rfl

/-- Dispatch of the value parser on an opening-brace head character. -/
theorem parseYaml_brace (fuel : Nat) (cs : Str) :
    parseYaml (fuel + 1) ('\x7b' :: cs)
      = if cs.head? = some '\x7d' then some (.map [], cs.tail)
        else (parsePairsY fuel cs).map (fun r => (Yaml.map r.1, r.2)) := rfl

/-- The parser inverts the dump: top-level values, list elements and mapping
entries, given enough fuel. -/
theorem parseYaml_dumpYaml (fuel : Nat) :
    (∀ v rest, stopOK rest → ysize v ≤ fuel →
      parseYaml fuel (dumpYaml v ++ rest) = some (v, rest)) ∧
    (∀ xs rest, xs ≠ [] → ysizeList xs ≤ fuel →
      parseElemsY fuel (dumpElems xs ++ ']' :: rest) = some (xs, rest)) ∧
    (∀ kvs rest, kvs ≠ [] → ysizePairs kvs ≤ fuel →
      parsePairsY fuel (dumpPairs kvs ++ '\x7d' :: rest) = some (kvs, rest)) := by
  induction fuel with
  | zero =>
    refine ⟨fun v _ _ hv => absurd hv (by have := ysize_pos v; omega),
      fun xs _ hne hs => ?_, fun kvs _ hne hs => ?_⟩
    · cases xs with
      | nil => exact absurd rfl hne
      | cons x xs =>
        simp only [ysizeList] at hs
        omega
    · cases kvs with
      | nil => exact absurd rfl hne
      | cons kv kvs =>
        simp only [ysizePairs] at hs
        omega
  | succ fuel ih =>
    obtain ⟨ihV, ihE, ihP⟩ := ih
    refine ⟨?_, ?_, ?_⟩
    · intro v rest hrest hv
      cases v with
      | str s =>
        rw [show dumpYaml (.str s) ++ rest = '"' :: (escapeChars s ++ '"' :: rest) by
          rw [dumpYaml]; simp]
        rw [parseYaml.eq_def]
        simp only []
        simp [parseStringTail_escape]
      | num n =>
        by_cases hneg : n < 0
        · rw [show dumpYaml (.num n) ++ rest = '-' :: (natChars n.natAbs ++ rest) by
            rw [dumpYaml]; unfold intChars; rw [if_pos hneg]; simp]
          rw [parseYaml.eq_def]
          simp only []
          simp only [reduceIte]
          rw [parseNatChars_natChars _ _ hrest]
          simp [Int.ofNat_natAbs_of_nonpos (le_of_lt hneg)]
        · cases hnc : natChars n.toNat with
          | nil => exact absurd hnc (natChars_ne_nil _)
          | cons c0 t =>
            have hdig : isDigit c0 = true :=
              natChars_digits n.toNat c0 (by rw [hnc]; exact List.mem_cons_self _ _)
            obtain ⟨h1, h2, h3, h4, h5, h6⟩ := isDigit_facts c0 hdig
            rw [show dumpYaml (.num n) ++ rest = c0 :: (t ++ rest) by
              rw [dumpYaml]; unfold intChars; rw [if_neg hneg, hnc]; simp]
            rw [parseYaml.eq_def]
            simp only []
            rw [if_neg h1, if_neg h2, if_neg h3, if_neg h4, if_neg h5, if_neg h6,
              if_pos hdig]
            rw [show (c0 :: (t ++ rest)) = (natChars n.toNat ++ rest) by rw [hnc]; simp]
            rw [parseNatChars_natChars _ _ hrest]
            simp [Int.toNat_of_nonneg (show (0 : Int) ≤ n by omega)]
      | bool b =>
        cases b with
        | true =>
          rw [show dumpYaml (.bool true) ++ rest = 't' :: 'r' :: 'u' :: 'e' :: rest by
            rw [dumpYaml]; simp]
          rw [parseYaml.eq_def]
          simp
        | false =>
          rw [show dumpYaml (.bool false) ++ rest = 'f' :: 'a' :: 'l' :: 's' :: 'e' :: rest by
            rw [dumpYaml]; simp]
          rw [parseYaml.eq_def]
          simp
      | arr xs =>
        cases xs with
        | nil =>
          rw [show dumpYaml (.arr []) ++ rest = '[' :: ']' :: rest by
            rw [dumpYaml, dumpElems]; simp]
          rw [parseYaml.eq_def]
          simp
        | cons x xs2 =>
          rw [show dumpYaml (.arr (x :: xs2)) ++ rest =
                '[' :: (dumpElems (x :: xs2) ++ ']' :: rest) by
            rw [dumpYaml]; simp]
          rw [parseYaml_bracket]
          obtain ⟨t, ht⟩ := dumpElems_cons_eq x xs2
          obtain ⟨c0, cs0, hd0, _, hne0, _⟩ := dumpYaml_head_clean x
          rw [if_neg ?hnotbr]
          case hnotbr =>
            rw [ht, hd0]
            simp only [List.cons_append, List.head?_cons, Option.some.injEq]
            exact fun he => hne0 he
          rw [ihE (x :: xs2) rest (by simp) ?hsz]
          case hsz =>
            have : ysize (Yaml.arr (x :: xs2)) = 1 + ysizeList (x :: xs2) := by rw [ysize]
            omega
          rfl
      | map kvs =>
        cases kvs with
        | nil =>
          rw [show dumpYaml (.map []) ++ rest = '\x7b' :: '\x7d' :: rest by
            rw [dumpYaml, dumpPairs]; simp]
          rw [parseYaml.eq_def]
          simp
        | cons kv kvs2 =>
          obtain ⟨k, v⟩ := kv
          rw [show dumpYaml (.map ((k, v) :: kvs2)) ++ rest =
                '\x7b' :: (dumpPairs ((k, v) :: kvs2) ++ '\x7d' :: rest) by
            rw [dumpYaml]; simp]
          rw [parseYaml_brace]
          obtain ⟨t, ht⟩ := dumpPairs_cons_eq k v kvs2
          rw [if_neg ?hnotbr2]
          case hnotbr2 =>
            rw [ht]
            simp only [List.cons_append, List.head?_cons, Option.some.injEq]
            decide
          rw [ihP ((k, v) :: kvs2) rest (by simp) ?hsz2]
          case hsz2 =>
            have : ysize (Yaml.map ((k, v) :: kvs2)) = 1 + ysizePairs ((k, v) :: kvs2) := by
              rw [ysize]
            omega
          rfl
    · intro xs rest hne hs
      cases xs with
      | nil => exact absurd rfl hne
      | cons x xs2 =>
        have hs2 : ysizeList (x :: xs2) = 1 + ysize x + ysizeList xs2 := by rw [ysizeList]
        rw [parseElemsY.eq_def]
        simp only []
        cases xs2 with
        | nil =>
          rw [show dumpElems [x] ++ ']' :: rest = dumpYaml x ++ ']' :: rest by
            rw [dumpElems]]
          rw [ihV x (']' :: rest) (stopOK_cons ']' (by decide) rest) (by omega)]
          rfl
        | cons y ys =>
          rw [show dumpElems (x :: y :: ys) ++ ']' :: rest =
                dumpYaml x ++ ',' :: ' ' :: (dumpElems (y :: ys) ++ ']' :: rest) by
            rw [dumpElems] <;> simp]
          rw [ihV x _ (stopOK_cons ',' (by decide) _) (by omega)]
          have hs3 : ysizeList (y :: ys) ≤ fuel := by
            have : ysizeList (y :: ys) = 1 + ysize y + ysizeList ys := by rw [ysizeList]
            have hp := ysize_pos x
            omega
          show Option.map (fun r => (x :: r.1, r.2))
              (parseElemsY fuel (dumpElems (y :: ys) ++ ']' :: rest))
            = some (x :: y :: ys, rest)
          rw [ihE (y :: ys) rest (by simp) hs3]
          rfl
    · intro kvs rest hne hs
      cases kvs with
      | nil => exact absurd rfl hne
      | cons kv kvs2 =>
        obtain ⟨k, v⟩ := kv
        have hs2 : ysizePairs ((k, v) :: kvs2) = 1 + ysize v + ysizePairs kvs2 := by
          rw [ysizePairs]
        cases kvs2 with
        | nil =>
          rw [show dumpPairs [(k, v)] ++ '\x7d' :: rest =
                '"' :: (escapeChars k ++ '"' :: (':' :: ' ' :: (dumpYaml v ++ '\x7d' :: rest))) by
            rw [dumpPairs]; simp]
          rw [parsePairsY.eq_def]
          simp only []
          rw [parseStringTail_escape]
          simp only []
          rw [ihV v ('\x7d' :: rest) (stopOK_cons '\x7d' (by decide) rest) (by omega)]
          rfl
        | cons kv2 kvs3 =>
          rw [show dumpPairs ((k, v) :: kv2 :: kvs3) ++ '\x7d' :: rest =
                '"' :: (escapeChars k ++ '"' :: (':' :: ' ' ::
                  (dumpYaml v ++ ',' :: ' ' :: (dumpPairs (kv2 :: kvs3) ++ '\x7d' :: rest)))) by
            rw [dumpPairs] <;> simp]
          rw [parsePairsY.eq_def]
          simp only []
          rw [parseStringTail_escape]
          simp only []
          rw [ihV v _ (stopOK_cons ',' (by decide) _) (by omega)]
          have hs3 : ysizePairs (kv2 :: kvs3) ≤ fuel := by
            have : ysizePairs (kv2 :: kvs3) = 1 + ysize kv2.2 + ysizePairs kvs3 := by
              rw [ysizePairs]
            have hp := ysize_pos v
            omega
          show Option.map (fun r => ((k, v) :: r.1, r.2))
              (parsePairsY fuel (dumpPairs (kv2 :: kvs3) ++ '\x7d' :: rest))
            = some ((k, v) :: kv2 :: kvs3, rest)
          rw [ihP (kv2 :: kvs3) rest (by simp) hs3]
          rfl

/-- The integer rendering is never empty. -/
theorem intChars_ne_nil (n : Int) : intChars n ≠ [] := by
  rw [intChars]
  by_cases h : n < 0
  · rw [if_pos h]; simp
  · rw [if_neg h]; exact natChars_ne_nil _

/-- The element dump is at least as long as the summed element sizes, up to
the missing closing bracket. -/
theorem dumpElems_len (xs : List Yaml) (h : ∀ x ∈ xs, ysize x ≤ (dumpYaml x).length) :
    ysizeList xs ≤ (dumpElems xs).length + 1 := by
  induction xs with
  | nil => rw [ysizeList]; omega
  | cons x t ih =>
    have hx := h x (List.mem_cons_self _ _)
    have hys : ysizeList (x :: t) = 1 + ysize x + ysizeList t := by rw [ysizeList]
    cases t with
    | nil =>
      rw [show dumpElems [x] = dumpYaml x by rw [dumpElems]]
      have h0 : ysizeList ([] : List Yaml) = 0 := by rw [ysizeList]
      omega
    | cons y ys =>
      have ht := ih (fun z hz => h z (List.mem_cons_of_mem _ hz))
      rw [show dumpElems (x :: y :: ys) = dumpYaml x ++ ',' :: ' ' :: dumpElems (y :: ys) by
        rw [dumpElems] <;> simp]
      simp only [List.length_append, List.length_cons]
      omega

/-- The pair dump is at least as long as the summed entry sizes, up to the
missing closing brace. -/
theorem dumpPairs_len (kvs : List (Str × Yaml))
    (h : ∀ kv ∈ kvs, ysize kv.2 ≤ (dumpYaml kv.2).length) :
    ysizePairs kvs ≤ (dumpPairs kvs).length + 1 := by
  induction kvs with
  | nil => rw [ysizePairs]; omega
  | cons kv t ih =>
    obtain ⟨k, v⟩ := kv
    have hx := h (k, v) (List.mem_cons_self _ _)
    simp only at hx
    have hys : ysizePairs ((k, v) :: t) = 1 + ysize v + ysizePairs t := by rw [ysizePairs]
    cases t with
    | nil =>
      rw [show dumpPairs [(k, v)] = ('"' :: (escapeChars k ++ ['"', ':', ' '])) ++ dumpYaml v by
        rw [dumpPairs]]
      have h0 : ysizePairs ([] : List (Str × Yaml)) = 0 := by rw [ysizePairs]
      simp only [List.length_append, List.length_cons]
      omega
    | cons kv2 t2 =>
      have ht := ih (fun z hz => h z (List.mem_cons_of_mem _ hz))
      rw [show dumpPairs ((k, v) :: kv2 :: t2) =
            (('"' :: (escapeChars k ++ ['"', ':', ' '])) ++ dumpYaml v) ++
              ',' :: ' ' :: dumpPairs (kv2 :: t2) by
        rw [dumpPairs] <;> simp]
      simp only [List.length_append, List.length_cons]
      omega

/-- The dump of a value is at least as long as its structural size, so the
length-derived fuel of `yamlLoad` suffices for the round trip. -/
theorem ysize_le_dump_len (v : Yaml) : ysize v ≤ (dumpYaml v).length := by
  have main : ∀ N : Nat, ∀ v : Yaml, ysize v ≤ N → ysize v ≤ (dumpYaml v).length := by
    intro N
    induction N using Nat.strong_induction_on with
    | _ N ih =>
      intro v hv
      cases v with
      | str s =>
        rw [show dumpYaml (.str s) = '"' :: (escapeChars s ++ ['"']) by rw [dumpYaml]]
        rw [show ysize (.str s) = 1 by rw [ysize]]
        simp
      | num n =>
        rw [show dumpYaml (.num n) = intChars n by rw [dumpYaml]]
        rw [show ysize (.num n) = 1 by rw [ysize]]
        have hne := intChars_ne_nil n
        cases hic : intChars n with
        | nil => exact absurd hic hne
        | cons c cs => simp
      | bool b =>
        cases b <;> (rw [dumpYaml, ysize]) <;> simp
      | arr xs =>
        rw [show dumpYaml (.arr xs) = '[' :: (dumpElems xs ++ [']']) by rw [dumpYaml]]
        rw [show ysize (.arr xs) = 1 + ysizeList xs by rw [ysize]]
        have hel : ysizeList xs ≤ (dumpElems xs).length + 1 := by
          refine dumpElems_len xs (fun x hx => ?_)
          have h1 := ysize_lt_of_mem_list x xs hx
          have h2 : ysize (Yaml.arr xs) = 1 + ysizeList xs := by rw [ysize]
          exact ih (ysize x) (by omega) x le_rfl
        simp only [List.length_cons, List.length_append]
        simp only [List.length_cons, List.length_nil]
        omega
      | map kvs =>
        rw [show dumpYaml (.map kvs) = '\x7b' :: (dumpPairs kvs ++ ['\x7d']) by rw [dumpYaml]]
        rw [show ysize (.map kvs) = 1 + ysizePairs kvs by rw [ysize]]
        have hel : ysizePairs kvs ≤ (dumpPairs kvs).length + 1 := by
          refine dumpPairs_len kvs (fun kv hkv => ?_)
          have h1 := ysize_lt_of_mem_pairs kv kvs hkv
          have h2 : ysize (Yaml.map kvs) = 1 + ysizePairs kvs := by rw [ysize]
          exact ih (ysize kv.2) (by omega) kv.2 le_rfl
        simp only [List.length_cons, List.length_append]
        simp only [List.length_cons, List.length_nil]
        omega
  exact main (ysize v) v le_rfl

/-- The modelled `yaml.load` inverts the modelled `yaml.dump`. -/
theorem yamlLoad_dumpYaml (v : Yaml) : yamlLoad (dumpYaml v) = some v := by
  have hstop : stopOK [] := by intro c hc; simp at hc
  have h := (parseYaml_dumpYaml ((dumpYaml v).length + 1)).1 v [] hstop
    (le_trans (ysize_le_dump_len v) (by omega))
  rw [List.append_nil] at h
  rw [yamlLoad, h]

/-- The lazy scan steps over a non-newline character, prepending it to the
group-1 capture. -/
theorem scanTerminator_cons_ne (c : Char) (rest : Str) (hc : c ≠ '\n') :
    scanTerminator (c :: rest) = (scanTerminator rest).map (fun p => (c :: p.1, p.2)) := by
  rw [scanTerminator.eq_def]
  split
  · next heq => simp at heq
  · next a b hb =>
    injection hb with h1 h2
    exact absurd h1 hc
  · next c2 rest2 hno heq =>
    injection heq with h1 h2
    rw [h1, h2]

/-- The lazy scan stops at a dashed terminator whose trailing whitespace run
matches. -/
theorem scanTerminator_hit (r2 r : Str) (hr : (wsNlRemainders r2).head? = some r) :
    scanTerminator ('\n' :: '-' :: '-' :: '-' :: r2) = some ([], r) := by
  show (match wsNlRemainders r2 with
    | rr :: _ => some (([] : Str), rr)
    | [] => (scanTerminator r2).map (fun p => ('\n' :: '-' :: '-' :: '-' :: p.1, p.2)))
    = some ([], r)
  cases hw : wsNlRemainders r2 with
  | nil => rw [hw] at hr; simp at hr
  | cons a l =>
    rw [hw] at hr
    simp only [List.head?_cons, Option.some.injEq] at hr
    rw [hr]

/-- The lazy scan through a newline-free prefix captures exactly that prefix
before the first dashed terminator. -/
theorem scanTerminator_through (d r2 r : Str)
    (hd : ∀ c ∈ d, c ≠ '\n') (hr : (wsNlRemainders r2).head? = some r) :
    scanTerminator (d ++ '\n' :: '-' :: '-' :: '-' :: r2) = some (d, r) := by
  induction d with
  | nil => simpa using scanTerminator_hit r2 r hr
  | cons c d2 ih =>
    have hc : c ≠ '\n' := hd c (List.mem_cons_self _ _)
    rw [List.cons_append, scanTerminator_cons_ne c _ hc,
      ih (fun x hx => hd x (List.mem_cons_of_mem _ hx))]
    rfl

/-- When the character after the opening newline is not whitespace, the
greedy whitespace run consumes exactly that newline. -/
theorem wsNlRemainders_one (t : Str) (h : ∀ c ∈ t.head?, isWs c = false) :
    wsNlRemainders ('\n' :: t) = [t] := by
  have htw : t.takeWhile isWs = [] := by
    cases t with
    | nil => rfl
    | cons c t2 =>
      have hc := h c (by simp)
      simp [List.takeWhile_cons, hc]
  rw [wsNlRemainders]
  simp only [List.takeWhile_cons, show isWs '\n' = true from rfl, if_true, htw]
  rw [show (List.range ['\n'].length).reverse = [0] by decide]
  simp

/-- An opening newline always yields at least one whitespace-run candidate. -/
theorem wsNlRemainders_ne_nil (t : Str) : wsNlRemainders ('\n' :: t) ≠ [] := by
  have hrun : ('\n' :: t).takeWhile isWs = '\n' :: t.takeWhile isWs := by
    simp [List.takeWhile_cons, show isWs '\n' = true from rfl]
  apply List.ne_nil_of_mem (a := t)
  rw [wsNlRemainders]
  simp only [hrun]
  rw [List.mem_filterMap]
  exact ⟨0, by simp, by simp⟩

/-- Every whitespace-run candidate remainder arises by dropping an
all-whitespace prefix that ends with a newline. -/
theorem wsNlRemainders_mem (cs r : Str) (h : r ∈ wsNlRemainders cs) :
    ∃ p, cs = p ++ r ∧ (∀ c ∈ p, isWs c = true) ∧ p.getLast? = some '\n' := by
  rw [wsNlRemainders] at h
  simp only [List.mem_filterMap, List.mem_reverse, List.mem_range] at h
  obtain ⟨i, hi, hfi⟩ := h
  by_cases hnl : (cs.takeWhile isWs)[i]? = some '\n'
  case neg => rw [if_neg hnl] at hfi; simp at hfi
  rw [if_pos hnl] at hfi
  have hdrop : cs.drop (i + 1) = r := by simpa using hfi
  obtain ⟨rest, hrest⟩ : ∃ rest, cs.takeWhile isWs ++ rest = cs :=
    ⟨cs.dropWhile isWs, List.takeWhile_append_dropWhile isWs cs⟩
  have htake : cs.take (i + 1) = (cs.takeWhile isWs).take (i + 1) := by
    conv_lhs => rw [← hrest]
    exact List.take_append_of_le_length (by omega)
  refine ⟨cs.take (i + 1), ?_, ?_, ?_⟩
  · rw [← hdrop]; exact (List.take_append_drop _ _).symm
  · intro c hcmem
    rw [htake] at hcmem
    exact List.mem_takeWhile_imp (List.take_subset _ _ hcmem)
  · rw [htake, List.take_succ, hnl]
    simp

/-- The frontmatter regex on serializer output: group 1 captures exactly the
dumped YAML text and group 2 is a whitespace-run candidate remainder of the
blank-line-plus-body tail. -/
theorem parseFMSplit_serializeGDD (g : ParsedGDD) :
    ∃ r, parseFMSplit (serializeGDD g) = some (dumpYaml g.frontmatter, r) ∧
      r ∈ wsNlRemainders ('\n' :: '\n' :: g.content) := by
  obtain ⟨c0, cs0, hd0, hws0, _, _⟩ := dumpYaml_head_clean g.frontmatter
  cases hw : wsNlRemainders ('\n' :: '\n' :: g.content) with
  | nil => exact absurd hw (wsNlRemainders_ne_nil _)
  | cons r l =>
    refine ⟨r, ?_, by first
      | exact List.mem_cons_self _ _
      | · rw [hw]; exact List.mem_cons_self _ _⟩
    have hser : serializeGDD g = '-' :: '-' :: '-' ::
        ('\n' :: (dumpYaml g.frontmatter ++
          '\n' :: '-' :: '-' :: '-' :: ('\n' :: '\n' :: g.content))) := by
      rw [serializeGDD, dumpYamlDoc]
      simp
    rw [hser]
    show firstScan (wsNlRemainders ('\n' :: (dumpYaml g.frontmatter ++
      '\n' :: '-' :: '-' :: '-' :: ('\n' :: '\n' :: g.content)))) = _
    rw [wsNlRemainders_one _ (by
      intro c hc
      rw [hd0] at hc
      simp only [List.cons_append, List.head?_cons, Option.mem_def,
        Option.some.injEq] at hc
      rw [← hc]
      exact hws0)]
    rw [firstScan]
    rw [scanTerminator_through (dumpYaml g.frontmatter) _ r
      (fun c hc he => dumpYaml_no_nl g.frontmatter (he ▸ hc))
      (by rw [hw]; rfl)]

/-- Prepending all-whitespace material that ends with a newline does not
change the parsed section map. -/
theorem parseMarkdownSections_ws_prefix (p b : Str)
    (hws : ∀ c ∈ p, isWs c = true) (hnl : p.getLast? = some '\n') :
    parseMarkdownSections (p ++ b) = parseMarkdownSections b := by
  have hpne : p ≠ [] := by intro h; rw [h] at hnl; simp at hnl
  obtain ⟨p2, rfl⟩ : ∃ p2, p = p2 ++ ['\n'] := by
    refine ⟨p.dropLast, ?_⟩
    have hd := List.dropLast_append_getLast hpne
    rw [List.getLast?_eq_getLast p hpne] at hnl
    simp only [Option.some.injEq] at hnl
    rw [hnl] at hd
    exact hd.symm
  rw [parseMarkdownSections, parseMarkdownSections]
  rw [show (p2 ++ ['\n']) ++ b = p2 ++ '\n' :: b by simp]
  rw [splitNl_append_nl, List.foldl_append]
  rw [foldl_sectStep_no_heads (splitNl p2) _ (fun l hl =>
    headerMatch_of_ws l (fun c hc =>
      hws c (List.mem_append_left _ (mem_of_mem_splitNl p2 l hl c hc))))]
  simp only [List.nil_append]
  exact flushSect_foldl_preamble (splitNl b) [] (splitNl p2) []

/-- `parseFrontmatter` after `serializeGDD`: the frontmatter value is
recovered exactly and the body parses to the same section map. -/
theorem parseFrontmatter_serializeGDD (g : ParsedGDD) :
    ∃ g2, parseFrontmatter (serializeGDD g) = some g2 ∧
      g2.frontmatter = g.frontmatter ∧
      parseMarkdownSections g2.content = parseMarkdownSections g.content := by
  obtain ⟨r, hsplit, hmem⟩ := parseFMSplit_serializeGDD g
  obtain ⟨p0, hp0, hws0, hlast0⟩ := wsNlRemainders_mem _ r hmem
  refine ⟨⟨g.frontmatter, r⟩, ?_, rfl, ?_⟩
  · rw [parseFrontmatter, hsplit]
    show (match yamlLoad (dumpYaml g.frontmatter) with
      | none => none
      | some fm => some (ParsedGDD.mk fm r)) = _
    rw [yamlLoad_dumpYaml]
  · have h1 : parseMarkdownSections ('\n' :: '\n' :: g.content) =
        parseMarkdownSections r := by
      rw [hp0]
      exact parseMarkdownSections_ws_prefix p0 r hws0 hlast0
    have h2 : parseMarkdownSections ('\n' :: '\n' :: g.content) =
        parseMarkdownSections g.content := by
      have h3 := parseMarkdownSections_ws_prefix ['\n', '\n'] g.content
        (by decide) (by decide)
      simpa using h3
    show parseMarkdownSections r = parseMarkdownSections g.content
    rw [← h1, h2]

/-! ## Lemmas: entity operations -/

/-- `Map.get` on a fresh key appended at the end. -/
theorem mapGet_append_not_has (m : SectionMap) (s v : Str) (h : mapHas m s = false) :
    mapGet (m ++ [(s, v)]) s = some v := by
  induction m with
  | nil => simp [mapGet, List.find?]
  | cons kv m ih =>
    simp only [mapHas, List.any_cons, Bool.or_eq_false_iff] at h
    simp only [List.cons_append, mapGet, List.find?_cons, h.1]
    have := ih (by simp [mapHas, h.2])
    simpa [mapGet] using this

/-- The duplicate-id loop returns no error exactly when the ids are fresh
with respect to the seen-set and pairwise distinct. -/
theorem dupIdErrors_eq_nil (msg : String → String) (ids : List String) :
    ∀ seen, dupIdErrors msg seen ids = [] →
      (∀ i ∈ ids, seen.contains i = false) ∧ ids.Nodup := by
  induction ids with
  | nil => intro seen _; simp
  | cons i rest ih =>
    intro seen h
    rw [dupIdErrors] at h
    rcases List.append_eq_nil.mp h with ⟨h1, h2⟩
    have hseen : seen.contains i = false := by
      by_cases hc : seen.contains i = true
      · rw [if_pos hc] at h1; simp at h1
      · simpa using hc
    obtain ⟨hfresh, hnodup⟩ := ih (i :: seen) h2
    refine ⟨?_, ?_⟩
    · intro j hj
      rcases List.mem_cons.mp hj with rfl | hj2
      · exact hseen
      · have := hfresh j hj2
        simp only [List.contains_cons, Bool.or_eq_false_iff] at this
        exact this.2
    · rw [List.nodup_cons]
      refine ⟨?_, hnodup⟩
      intro hmem
      have := hfresh i hmem
      simp at this
    
/-- A flat map of singletons is a map. -/
theorem flatMap_single {α β : Type} (l : List α) (g : α → β) :
    l.flatMap (fun x => [g x]) = l.map g := by
  induction l with
  | nil => rfl
  | cons x xs ih => simp [List.flatMap_cons, ih]

/-- `queryTasks` with no filters lists every task of every feature, in
document order, annotated with its feature. -/
theorem queryTasks_none_none (fm : GDDFrontmatter) :
    queryTasks fm none none = fm.features.flatMap (fun f =>
      f.tasks.map (fun t =>
        GDDTaskWithFeature.mk t.id t.title t.estimate f.id)) := by
  show fm.features.flatMap (fun f =>
      f.tasks.flatMap (fun t =>
        [GDDTaskWithFeature.mk t.id t.title t.estimate f.id])) = _
  have aux : ∀ fs : List GDDFeature,
      fs.flatMap (fun f => f.tasks.flatMap (fun t =>
        [GDDTaskWithFeature.mk t.id t.title t.estimate f.id]))
        = fs.flatMap (fun f => f.tasks.map (fun t =>
            GDDTaskWithFeature.mk t.id t.title t.estimate f.id)) := by
    intro fs
    induction fs with
    | nil => rfl
    | cons f fs ih =>
      rw [List.flatMap_cons, List.flatMap_cons, flatMap_single, ih]
  exact aux fm.features

/-- Folding addition of estimates equals the sum of the mapped estimates. -/
theorem foldl_add_estimates (l : List GDDTaskWithFeature) (a : Rat) :
    l.foldl (fun sum t => sum + taskEstimateOr0 t.estimate) a
      = a + (l.map (fun t => taskEstimateOr0 t.estimate)).sum := by
  induction l generalizing a with
  | nil => simp
  | cons t rest ih =>
    simp only [List.foldl_cons, List.map_cons, List.sum_cons]
    rw [ih]
    ring

/-- `addTaskWalk` when no feature bears the id. -/
theorem addTaskWalk_notfound (fid : String) (task : GDDTask) (fs : List GDDFeature)
    (h : ∀ g ∈ fs, g.id ≠ fid) :
    addTaskWalk fid task fs = .error (.featureNotFound fid) := by
  induction fs with
  | nil => rfl
  | cons f fs ih =>
    rw [addTaskWalk]
    rw [if_neg (by simpa using h f (List.mem_cons_self _ _))]
    rw [ih (fun g hg => h g (List.mem_cons_of_mem _ hg))]
    rfl

/-- `addTaskWalk` at the first feature bearing the id: duplicate check, then
append at the end of that feature's task list. -/
theorem addTaskWalk_found (fid : String) (task : GDDTask)
    (fpre : List GDDFeature) (f : GDDFeature) (fpost : List GDDFeature)
    (hpre : ∀ g ∈ fpre, g.id ≠ fid) (hf : f.id = fid) :
    addTaskWalk fid task (fpre ++ f :: fpost)
      = if f.tasks.any (fun t => t.id == task.id) then
          .error (.duplicateTaskId task.id fid)
        else .ok (fpre ++ { f with tasks := f.tasks ++ [task] } :: fpost) := by
  induction fpre with
  | nil =>
    simp only [List.nil_append]
    rw [addTaskWalk]
    rw [if_pos (by simpa using hf)]
  | cons g fpre ih =>
    simp only [List.cons_append]
    rw [addTaskWalk]
    rw [if_neg (by simpa using hpre g (List.mem_cons_self _ _))]
    rw [ih (fun x hx => hpre x (List.mem_cons_of_mem _ hx))]
    by_cases hdup : f.tasks.any (fun t => t.id == task.id) = true
    · rw [if_pos hdup, if_pos hdup]; rfl
    · rw [if_neg hdup, if_neg hdup]; rfl

/-- `updateTasksFirst` when no task bears the id. -/
theorem updateTasksFirst_none (tid : String) (u : TaskUpdates) (ts : List GDDTask)
    (h : ∀ x ∈ ts, x.id ≠ tid) :
    updateTasksFirst tid u ts = none := by
  induction ts with
  | nil => rfl
  | cons t ts ih =>
    rw [updateTasksFirst]
    rw [if_neg (by simpa using h t (List.mem_cons_self _ _))]
    rw [ih (fun x hx => h x (List.mem_cons_of_mem _ hx))]
    rfl

/-- `updateTasksFirst` merges exactly the first task bearing the id. -/
theorem updateTasksFirst_found (tid : String) (u : TaskUpdates)
    (tpre : List GDDTask) (t : GDDTask) (tpost : List GDDTask)
    (hpre : ∀ x ∈ tpre, x.id ≠ tid) (ht : t.id = tid) :
    updateTasksFirst tid u (tpre ++ t :: tpost)
      = some (tpre ++ mergeTask t u :: tpost) := by
  induction tpre with
  | nil =>
    simp only [List.nil_append]
    rw [updateTasksFirst]
    rw [if_pos (by simpa using ht)]
  | cons x tpre ih =>
    simp only [List.cons_append]
    rw [updateTasksFirst]
    rw [if_neg (by simpa using hpre x (List.mem_cons_self _ _))]
    rw [ih (fun y hy => hpre y (List.mem_cons_of_mem _ hy))]
    rfl

/-- `updateTaskWalk` when no feature holds a task with the id. -/
theorem updateTaskWalk_none (tid : String) (u : TaskUpdates) (fs : List GDDFeature)
    (h : ∀ f ∈ fs, ∀ x ∈ f.tasks, x.id ≠ tid) :
    updateTaskWalk tid u fs = none := by
  induction fs with
  | nil => rfl
  | cons f fs ih =>
    rw [updateTaskWalk]
    rw [updateTasksFirst_none tid u f.tasks (h f (List.mem_cons_self _ _))]
    rw [ih (fun g hg => h g (List.mem_cons_of_mem _ hg))]
    rfl

/-- `updateTaskWalk` updates exactly the first matching task of the first
feature holding one, in document order. -/
theorem updateTaskWalk_found (tid : String) (u : TaskUpdates)
    (fpre : List GDDFeature) (f : GDDFeature) (fpost : List GDDFeature)
    (tpre : List GDDTask) (t : GDDTask) (tpost : List GDDTask)
    (hfpre : ∀ g ∈ fpre, ∀ x ∈ g.tasks, x.id ≠ tid)
    (hts : f.tasks = tpre ++ t :: tpost)
    (htpre : ∀ x ∈ tpre, x.id ≠ tid) (ht : t.id = tid) :
    updateTaskWalk tid u (fpre ++ f :: fpost)
      = some (fpre ++ { f with tasks := tpre ++ mergeTask t u :: tpost } :: fpost) := by
  induction fpre with
  | nil =>
    simp only [List.nil_append]
    rw [updateTaskWalk, hts]
    rw [updateTasksFirst_found tid u tpre t tpost htpre ht]
  | cons g fpre ih =>
    simp only [List.cons_append]
    rw [updateTaskWalk]
    rw [updateTasksFirst_none tid u g.tasks (hfpre g (List.mem_cons_self _ _))]
    rw [ih (fun x hx => hfpre x (List.mem_cons_of_mem _ hx))]
    rfl

/-- `setFirstFeature` when no feature bears the id. -/
theorem setFirstFeature_none (fid : String) (g : GDDFeature → GDDFeature)
    (fs : List GDDFeature) (h : ∀ f ∈ fs, f.id ≠ fid) :
    setFirstFeature fid g fs = none := by
  induction fs with
  | nil => rfl
  | cons f fs ih =>
    rw [setFirstFeature]
    rw [if_neg (by simpa using h f (List.mem_cons_self _ _))]
    rw [ih (fun x hx => h x (List.mem_cons_of_mem _ hx))]
    rfl

/-- `setFirstFeature` rewrites exactly the first feature bearing the id. -/
theorem setFirstFeature_found (fid : String) (g : GDDFeature → GDDFeature)
    (fpre : List GDDFeature) (f : GDDFeature) (fpost : List GDDFeature)
    (hpre : ∀ x ∈ fpre, x.id ≠ fid) (hf : f.id = fid) :
    setFirstFeature fid g (fpre ++ f :: fpost) = some (fpre ++ g f :: fpost) := by
  induction fpre with
  | nil =>
    simp only [List.nil_append]
    rw [setFirstFeature]
    rw [if_pos (by simpa using hf)]
  | cons x fpre ih =>
    simp only [List.cons_append]
    rw [setFirstFeature]
    rw [if_neg (by simpa using hpre x (List.mem_cons_self _ _))]
    rw [ih (fun y hy => hpre y (List.mem_cons_of_mem _ hy))]
    rfl

/-! ## The claims -/

/-- C1: for every parsed document (every `ParsedGDD`, which covers every
value `parseFrontmatter` can return on an accepted document), serializing it
and re-parsing succeeds, recovers the metadata value (milestones, features,
tasks and extra keys alike, since the whole YAML value is equal) exactly,
and yields a body whose heading-to-content section map equals the
original's; byte identity of the body is not required and indeed only
whitespace normalization occurs. -/
theorem serialize_parse_roundtrip (g : ParsedGDD) :
    ∃ g2, parseFrontmatter (serializeGDD g) = some g2 ∧
      g2.frontmatter = g.frontmatter ∧
      parseMarkdownSections g2.content = parseMarkdownSections g.content :=
  parseFrontmatter_serializeGDD g

/-- C2 (corrected): the section-editing frame holds at the level of the
parsed section map — the targeted section's entry is replaced by the
combined content, every other section keeps its content verbatim, and the
key order is preserved — but not at the raw-text level: the rebuilt body
drops preamble text and rewrites every heading at level 1 (see the
counterexample). -/
theorem section_edit_map_frame (body s c : Str) (mode : SectionOp)
    (hmem : mapHas (parseMarkdownSections body) s = true)
    (hkeys : ∀ kv ∈ parseMarkdownSections body,
      headerMatch ('#' :: ' ' :: kv.1) = some kv.1 ∧ '\n' ∉ kv.1)
    (hvals : ∀ kv ∈ parseMarkdownSections body, headingFree kv.2)
    (hc : headingFree c) :
    mapGet (parseMarkdownSections (updateContentSection body s c mode)) s
      = some (trimChars (combineContent mode
          ((mapGet (parseMarkdownSections body) s).getD []) c)) ∧
    (∀ k, k ≠ s → mapGet (parseMarkdownSections (updateContentSection body s c mode)) k
      = mapGet (parseMarkdownSections body) k) ∧
    (parseMarkdownSections (updateContentSection body s c mode)).map Prod.fst
      = (parseMarkdownSections body).map Prod.fst := by
  have h := updateContentSection_existing body s c mode hmem hkeys hvals hc
  rw [h]
  exact ⟨mapGet_mapSet_self _ _ _,
    fun k hk => mapGet_mapSet_other _ _ _ _ hk,
    mapSet_keys_of_has _ _ _ hmem⟩

/-- Witness for C2: the frame property evaluated on a two-section body. -/
theorem section_edit_map_frame_witness :
    mapHas (parseMarkdownSections bodyAB) ("A").data = true ∧
    (mapGet (parseMarkdownSections
        (updateContentSection bodyAB ("A").data ("new").data .replace)) ("A").data
      = some (trimChars (combineContent .replace
          ((mapGet (parseMarkdownSections bodyAB) ("A").data).getD []) ("new").data)) ∧
    (∀ k, k ≠ ("A").data → mapGet (parseMarkdownSections
        (updateContentSection bodyAB ("A").data ("new").data .replace)) k
      = mapGet (parseMarkdownSections bodyAB) k) ∧
    (parseMarkdownSections
        (updateContentSection bodyAB ("A").data ("new").data .replace)).map Prod.fst
      = (parseMarkdownSections bodyAB).map Prod.fst) :=
  ⟨by decide, section_edit_map_frame bodyAB ("A").data ("new").data .replace
    (by decide) (by decide) (by simp only [headingFree]; decide)
    (by simp only [headingFree]; decide)⟩

/-- Counterexample for C2 as frozen: rebuilding is not verbatim — the
preamble line `Pre` is dropped and the level-2 heading `## B` is rewritten
as `# B`. -/
theorem section_edit_not_verbatim :
    updateContentSection bodyPre ("A").data ("new").data .replace
      = ("# A\n\nnew\n\n# B\n\nb").data ∧
    ("Pre").data ∈ splitNl bodyPre ∧
    ("Pre").data ∉ splitNl (("# A\n\nnew\n\n# B\n\nb").data) ∧
    ("## B").data ∈ splitNl bodyPre ∧
    ("## B").data ∉ splitNl (("# A\n\nnew\n\n# B\n\nb").data) := by
  refine ⟨by decide, by decide, by decide, by decide, by decide⟩

/-- C3 (corrected): serialization is deterministic in the metadata VALUE,
but the key order it emits is the mapping's insertion order (`sortKeys:
false`), not a schema-fixed order: re-parsing the serialized document
recovers the exact pair list, order included. -/
theorem serialize_insertion_order (kvs : List (Str × Yaml)) (body : Str) :
    ∃ r, parseFrontmatter (serializeGDD (ParsedGDD.mk (.map kvs) body)) =
      some (ParsedGDD.mk (.map kvs) r) := by
  obtain ⟨g2, hp, hfm, _⟩ := parseFrontmatter_serializeGDD (ParsedGDD.mk (.map kvs) body)
  cases g2 with
  | mk fm2 c2 =>
    refine ⟨c2, ?_⟩
    rw [hp]
    simp only at hfm
    rw [hfm]

/-- A two-entry mapping read as a dictionary is insensitive to the entry
order. -/
theorem lookupPairs_pair_swap (k1 k2 : Str) (v1 v2 : Yaml) (hne : k1 ≠ k2) (k : Str) :
    lookupPairs [(k1, v1), (k2, v2)] k = lookupPairs [(k2, v2), (k1, v1)] k := by
  rw [lookupPairs, lookupPairs]
  cases hb1 : (k1 == k) <;> cases hb2 : (k2 == k)
  · simp [List.find?_cons, hb1, hb2]
  · simp [List.find?_cons, hb1, hb2]
  · simp [List.find?_cons, hb1, hb2]
  · have e1 : k1 = k := beq_iff_eq.mp hb1
    have e2 : k2 = k := beq_iff_eq.mp hb2
    exact absurd (e1.trans e2.symm) hne

/-- Counterexample for C3 as frozen: two metadata mappings equal as
dictionaries but built in different insertion orders serialize to different
documents, so the key order is not fixed by the typed schema. -/
theorem serialize_not_schema_order :
    (∀ k, lookupPairs kvsOrderA k = lookupPairs kvsOrderB k) ∧
    serializeGDD (ParsedGDD.mk (.map kvsOrderA) []) ≠
      serializeGDD (ParsedGDD.mk (.map kvsOrderB) []) := by
  constructor
  · intro k
    rw [kvsOrderA, kvsOrderB]
    exact lookupPairs_pair_swap _ _ _ _ (by decide) k
  · decide

/-- C4 (code bug): `updateFeature` re-validates the milestone reference only
under JavaScript truthiness (`if (updates.milestone)`), so an update that
sets `milestone` to the empty string skips the check, SUCCEEDS, and stores a
feature whose milestone resolves to no milestone id — the document now fails
the very reference validation the tool defines, where the documented
behaviour is a `DanglingReferenceError` failure leaving the document
unmodified. -/
theorem update_feature_empty_milestone_bug :
    updateFeature fmRefDoc "F-1"
      { id := none, title := none, milestone := some "", priority := none,
        acceptance := none, tasks := none } = .ok fmBadDoc ∧
    applyMutation fmRefDoc (updateFeature fmRefDoc "F-1"
      { id := none, title := none, milestone := some "", priority := none,
        acceptance := none, tasks := none }) = fmBadDoc ∧
    fmBadDoc.features.map (fun f => f.milestone) = [""] ∧
    fmBadDoc.milestones.any (fun m => m.id == "") = false ∧
    (validateGDD fmBadDoc [] .references).valid = false := by
  exact ⟨by rfl, by rfl, by decide, by decide, by decide⟩

/-- C5: a document that `validate_structure` with scope `all` reports
`valid = true` has pairwise-distinct milestone ids, pairwise-distinct
feature ids, and pairwise-distinct task ids within each feature; and
validation never throws — for every scope it returns a successful envelope
holding the result data. -/
theorem validate_all_implies_unique_ids (fm : GDDFrontmatter) (content : Str)
    (h : (validateGDD fm content .all).valid = true) :
    (fm.milestones.map (·.id)).Nodup ∧ (fm.features.map (·.id)).Nodup ∧
    (∀ f ∈ fm.features, (f.tasks.map (·.id)).Nodup) ∧
    (∀ ct, manageValidate fm content ct = .ok (validateGDD fm content ct)) := by
  have hval : (frontmatterErrors fm ++ referenceErrors fm).isEmpty = true := by
    have heq : (validateGDD fm content .all).valid
        = (frontmatterErrors fm ++ referenceErrors fm).isEmpty := by
      rw [validateGDD]
      simp
    rw [← heq]
    exact h
  rw [List.isEmpty_iff] at hval
  rcases List.append_eq_nil.mp hval with ⟨hfe, hre⟩
  rw [frontmatterErrors] at hfe
  rcases List.append_eq_nil.mp hfe with ⟨hm, hf⟩
  rw [referenceErrors] at hre
  rcases List.append_eq_nil.mp hre with ⟨_, htasks⟩
  refine ⟨(dupIdErrors_eq_nil _ _ [] hm).2, (dupIdErrors_eq_nil _ _ [] hf).2,
    ?_, fun ct => rfl⟩
  intro f hfmem
  have hone : dupIdErrors
      (fun i => s!"Duplicate task ID {i} in feature {f.id}") [] (f.tasks.map (·.id)) = [] := by
    refine List.flatten_eq_nil_iff.mp htasks _ ?_
    exact List.mem_map_of_mem _ hfmem
  exact (dupIdErrors_eq_nil _ _ [] hone).2

/-- Witness for C5: a concrete document validating clean, whose ids are
therefore pairwise distinct. -/
theorem validate_all_implies_unique_ids_witness :
    (validateGDD fmTaskDoc [] .all).valid = true ∧
    ((fmTaskDoc.milestones.map (·.id)).Nodup ∧ (fmTaskDoc.features.map (·.id)).Nodup ∧
    (∀ f ∈ fmTaskDoc.features, (f.tasks.map (·.id)).Nodup) ∧
    (∀ ct, manageValidate fmTaskDoc [] ct = .ok (validateGDD fmTaskDoc [] ct))) :=
  ⟨by decide, validate_all_implies_unique_ids fmTaskDoc [] (by decide)⟩

/-- C6: `exportSummary`'s `totalEstimate` is the sum of every task's
estimate with absent counted as 0; the task count it divides by is the total
task count over all features; `averageTaskEstimate` is exactly that
quotient; and with zero tasks it is 0 (rational division by zero), never an
error. -/
theorem summary_estimates_spec (fm : GDDFrontmatter) :
    (summaryEstimates fm).totalEstimate = specTotalEstimate fm ∧
    (queryTasks fm none none).length = (fm.features.flatMap (·.tasks)).length ∧
    (summaryEstimates fm).averageTaskEstimate
      = specTotalEstimate fm / ((queryTasks fm none none).length : Rat) ∧
    ((fm.features.flatMap (·.tasks)).length = 0 →
      (summaryEstimates fm).averageTaskEstimate = 0) := by
  have hmap : (queryTasks fm none none).map (fun t => taskEstimateOr0 t.estimate)
      = (fm.features.flatMap (·.tasks)).map (fun t => taskEstimateOr0 t.estimate) := by
    rw [queryTasks_none_none]
    have aux : ∀ fs : List GDDFeature,
        (fs.flatMap (fun f => f.tasks.map (fun t =>
          GDDTaskWithFeature.mk t.id t.title t.estimate f.id))).map
            (fun t => taskEstimateOr0 t.estimate)
        = (fs.flatMap (·.tasks)).map (fun t => taskEstimateOr0 t.estimate) := by
      intro fs
      induction fs with
      | nil => rfl
      | cons f fs ih =>
        rw [List.flatMap_cons, List.flatMap_cons, List.map_append, List.map_append, ih,
          List.map_map]
        rfl
    exact aux fm.features
  have hlen : (queryTasks fm none none).length = (fm.features.flatMap (·.tasks)).length := by
    have h := congrArg List.length hmap
    simpa using h
  have htot : summaryTotalEstimate fm = specTotalEstimate fm := by
    rw [summaryTotalEstimate, foldl_add_estimates, hmap, specTotalEstimate, zero_add]
  have havg : summaryAverageTaskEstimate fm
      = summaryTotalEstimate fm / ((queryTasks fm none none).length : Rat) := by
    rw [summaryAverageTaskEstimate, numOrZero]
    by_cases h0 : summaryTotalEstimate fm / ((queryTasks fm none none).length : Rat) = 0
    · rw [if_pos h0, h0]
    · rw [if_neg h0]
  refine ⟨htot, hlen, ?_, ?_⟩
  · show summaryAverageTaskEstimate fm = _
    rw [havg, htot]
  · intro h0
    show summaryAverageTaskEstimate fm = 0
    rw [havg, hlen, h0]
    simp

/-- C7 (corrected): `updateTask` shallow-merges the supplied fields into the
first task, in document order of features and then of that feature's task
list, whose id matches; all other tasks are untouched and a missing id is a
not-found error. But the `update_task` action's response data is
`queryTasks(updated, undefined, task_id)[0]` — the first task bearing the
ORIGINAL id in the updated document — which is not the updated task when the
update changed the id (see the counterexample). -/
theorem update_task_first_match (fm : GDDFrontmatter) (taskId : String) (u : TaskUpdates)
    (fpre : List GDDFeature) (f : GDDFeature) (fpost : List GDDFeature)
    (tpre : List GDDTask) (t : GDDTask) (tpost : List GDDTask)
    (hfm : fm.features = fpre ++ f :: fpost)
    (hfpre : ∀ g ∈ fpre, ∀ x ∈ g.tasks, x.id ≠ taskId)
    (hts : f.tasks = tpre ++ t :: tpost)
    (htpre : ∀ x ∈ tpre, x.id ≠ taskId)
    (ht : t.id = taskId) :
    updateTask fm taskId u = .ok { fm with
      features := fpre ++ { f with tasks := tpre ++ mergeTask t u :: tpost } :: fpost } ∧
    manageUpdateTask fm taskId u = .ok ({ fm with
      features := fpre ++ { f with tasks := tpre ++ mergeTask t u :: tpost } :: fpost },
      (queryTasks { fm with
        features := fpre ++ { f with tasks := tpre ++ mergeTask t u :: tpost } :: fpost }
        none (some taskId)).head?) ∧
    (∀ fm2 : GDDFrontmatter, (∀ g ∈ fm2.features, ∀ x ∈ g.tasks, x.id ≠ taskId) →
      updateTask fm2 taskId u = .error (.taskNotFound taskId)) := by
  have hw := updateTaskWalk_found taskId u fpre f fpost tpre t tpost hfpre hts htpre ht
  have h1 : updateTask fm taskId u = .ok { fm with
      features := fpre ++ { f with tasks := tpre ++ mergeTask t u :: tpost } :: fpost } := by
    rw [updateTask, hfm, hw]
  refine ⟨h1, ?_, ?_⟩
  · rw [manageUpdateTask, h1]
  · intro fm2 h2
    rw [updateTask, updateTaskWalk_none taskId u fm2.features h2]

/-- Witness for C7: the first-match merge evaluated on a concrete document
(the update renames task `T-1` to `T-9`). -/
theorem update_task_first_match_witness :
    fmTaskDoc.features = [] ++ GDDFeature.mk "F-1" "f" "M1" .P1 []
        [GDDTask.mk "T-1" "x" (some 5)] :: [] ∧
    (GDDFeature.mk "F-1" "f" "M1" .P1 [] [GDDTask.mk "T-1" "x" (some 5)]).tasks
      = [] ++ GDDTask.mk "T-1" "x" (some 5) :: [] ∧
    updateTask fmTaskDoc "T-1" (taskIdUpdate "T-9") = .ok fmT9Doc :=
  ⟨rfl, rfl,
    (update_task_first_match fmTaskDoc "T-1" (taskIdUpdate "T-9") []
      (GDDFeature.mk "F-1" "f" "M1" .P1 [] [GDDTask.mk "T-1" "x" (some 5)]) [] []
      (GDDTask.mk "T-1" "x" (some 5)) []
      rfl (by simp) rfl (by simp) rfl).1⟩

/-- Counterexample for C7 as frozen: after an id-changing update the action
does NOT return the updated task — the response data is `none` (JavaScript
`undefined`), while the updated task exists in the document under its new
id. -/
theorem update_task_return_id_change :
    manageUpdateTask fmTaskDoc "T-1" (taskIdUpdate "T-9") = .ok (fmT9Doc, none) ∧
    (queryTasks fmT9Doc none (some "T-9")).map (fun t => t.id) = ["T-9"] := by
  exact ⟨by rfl, by decide⟩

/-- C8: `add_task` fails with a not-found error when the feature id is
absent and with a duplicate-id error when the feature already holds a task
with that id; a failing call leaves the stored document unchanged; a
successful call appends the task at the end of the feature's list and
returns it. The spec's scenario is evaluated in the closing conjunct:
`fmTaskDoc` is the stored document after the successful
`add_task(F-1, {id: T-1, estimate: 5})`, the repeated add fails, and the
feature still holds exactly one task with estimate 5. -/
theorem add_task_checks_atomic (fm : GDDFrontmatter) (fid : String) (task : GDDTask)
    (fpre : List GDDFeature) (f : GDDFeature) (fpost : List GDDFeature)
    (hfm : fm.features = fpre ++ f :: fpost)
    (hpre : ∀ g ∈ fpre, g.id ≠ fid) (hf : f.id = fid) :
    ((∃ t ∈ f.tasks, t.id = task.id) →
      addTaskToFeature fm fid task = .error (.duplicateTaskId task.id fid) ∧
      applyMutation fm (addTaskToFeature fm fid task) = fm) ∧
    ((∀ t ∈ f.tasks, t.id ≠ task.id) →
      manageAddTask fm fid task = .ok ({ fm with
        features := fpre ++ { f with tasks := f.tasks ++ [task] } :: fpost }, task)) ∧
    (∀ fm2 : GDDFrontmatter, (∀ g ∈ fm2.features, g.id ≠ fid) →
      addTaskToFeature fm2 fid task = .error (.featureNotFound fid) ∧
      applyMutation fm2 (addTaskToFeature fm2 fid task) = fm2) ∧
    (applyMutation fmRefDoc
        (addTaskToFeature fmRefDoc "F-1" (GDDTask.mk "T-1" "x" (some 5))) = fmTaskDoc ∧
      addTaskToFeature fmTaskDoc "F-1" (GDDTask.mk "T-1" "y" none)
        = .error (.duplicateTaskId "T-1" "F-1") ∧
      (queryTasks (applyMutation fmTaskDoc
          (addTaskToFeature fmTaskDoc "F-1" (GDDTask.mk "T-1" "y" none)))
        (some "F-1") none).map (fun t => (t.id, t.estimate)) = [("T-1", some 5)]) := by
  have hw := addTaskWalk_found fid task fpre f fpost hpre hf
  refine ⟨?_, ?_, ?_, by rfl, by rfl, by decide⟩
  · intro hdup
    have hany : f.tasks.any (fun x => x.id == task.id) = true := by
      rcases hdup with ⟨t, htmem, htid⟩
      exact List.any_eq_true.mpr ⟨t, htmem, by simp [htid]⟩
    have herr : addTaskToFeature fm fid task = .error (.duplicateTaskId task.id fid) := by
      rw [addTaskToFeature, hfm, hw, if_pos hany]
      rfl
    exact ⟨herr, by rw [herr]; rfl⟩
  · intro hno
    have hany : f.tasks.any (fun x => x.id == task.id) = false := by
      rw [List.any_eq_false]
      intro x hx
      simpa using hno x hx
    rw [manageAddTask, addTaskToFeature, hfm, hw, if_neg (by rw [hany]; simp)]
    rfl
  · intro fm2 h2
    have herr : addTaskToFeature fm2 fid task = .error (.featureNotFound fid) := by
      rw [addTaskToFeature, addTaskWalk_notfound fid task fm2.features h2]
      rfl
    exact ⟨herr, by rw [herr]; rfl⟩

/-- Witness for C8: the duplicate-id rejection evaluated on the stored
document of the spec's scenario. -/
theorem add_task_checks_atomic_witness :
    fmTaskDoc.features = [] ++ GDDFeature.mk "F-1" "f" "M1" .P1 []
        [GDDTask.mk "T-1" "x" (some 5)] :: [] ∧
    (∃ t ∈ (GDDFeature.mk "F-1" "f" "M1" .P1 [] [GDDTask.mk "T-1" "x" (some 5)]).tasks,
      t.id = (GDDTask.mk "T-1" "y" none).id) ∧
    addTaskToFeature fmTaskDoc "F-1" (GDDTask.mk "T-1" "y" none)
      = .error (.duplicateTaskId "T-1" "F-1") ∧
    applyMutation fmTaskDoc
      (addTaskToFeature fmTaskDoc "F-1" (GDDTask.mk "T-1" "y" none)) = fmTaskDoc :=
  ⟨rfl, ⟨GDDTask.mk "T-1" "x" (some 5), List.mem_cons_self _ _, rfl⟩,
    ((add_task_checks_atomic fmTaskDoc "F-1" (GDDTask.mk "T-1" "y" none) []
        (GDDFeature.mk "F-1" "f" "M1" .P1 [] [GDDTask.mk "T-1" "x" (some 5)]) []
        rfl (by simp) rfl).1
      ⟨GDDTask.mk "T-1" "x" (some 5), List.mem_cons_self _ _, rfl⟩).1,
    ((add_task_checks_atomic fmTaskDoc "F-1" (GDDTask.mk "T-1" "y" none) []
        (GDDFeature.mk "F-1" "f" "M1" .P1 [] [GDDTask.mk "T-1" "x" (some 5)]) []
        rfl (by simp) rfl).1
      ⟨GDDTask.mk "T-1" "x" (some 5), List.mem_cons_self _ _, rfl⟩).2⟩

/-- C9: updating a section whose heading is absent creates it — whatever the
mode — at the end of the document under a top-level heading, with the new
content (trimmed) as its entire content; a subsequent append to the
now-existing section combines the old content, a blank line and the new
content. -/
theorem missing_section_create_append (body s c c2 : Str) (mode : SectionOp)
    (habs : mapHas (parseMarkdownSections body) s = false)
    (hkey : headerMatch ('#' :: ' ' :: s) = some s)
    (hknl : '\n' ∉ s)
    (hkeys : ∀ kv ∈ parseMarkdownSections body,
      headerMatch ('#' :: ' ' :: kv.1) = some kv.1 ∧ '\n' ∉ kv.1)
    (hvals : ∀ kv ∈ parseMarkdownSections body, headingFree kv.2)
    (hc : headingFree c) (hct : headingFree (trimChars c)) (hc2 : headingFree c2) :
    updateContentSection body s c mode
      = body ++ ('\n' :: '\n' :: '#' :: ' ' :: s) ++ ('\n' :: '\n' :: c) ∧
    parseMarkdownSections (updateContentSection body s c mode)
      = parseMarkdownSections body ++ [(s, trimChars c)] ∧
    mapGet (parseMarkdownSections
        (updateContentSection (updateContentSection body s c mode) s c2 .append)) s
      = some (trimChars (trimChars c ++ '\n' :: '\n' :: c2)) := by
  have hcr := updateContentSection_create body s c mode habs hkey hknl hc
  refine ⟨hcr.1, hcr.2, ?_⟩
  have hm2 := hcr.2
  have hmem2 : mapHas (parseMarkdownSections (updateContentSection body s c mode)) s
      = true := by
    rw [hm2, mapHas_append]
    simp [mapHas]
  have hkeys2 : ∀ kv ∈ parseMarkdownSections (updateContentSection body s c mode),
      headerMatch ('#' :: ' ' :: kv.1) = some kv.1 ∧ '\n' ∉ kv.1 := by
    rw [hm2]
    intro kv hkv
    rcases List.mem_append.mp hkv with hin | hin
    · exact hkeys kv hin
    · simp only [List.mem_singleton] at hin
      rw [hin]
      exact ⟨hkey, hknl⟩
  have hvals2 : ∀ kv ∈ parseMarkdownSections (updateContentSection body s c mode),
      headingFree kv.2 := by
    rw [hm2]
    intro kv hkv
    rcases List.mem_append.mp hkv with hin | hin
    · exact hvals kv hin
    · simp only [List.mem_singleton] at hin
      rw [hin]
      exact hct
  have hex := updateContentSection_existing (updateContentSection body s c mode) s c2
    .append hmem2 hkeys2 hvals2 hc2
  rw [hex, mapGet_mapSet_self]
  have hget : mapGet (parseMarkdownSections (updateContentSection body s c mode)) s
      = some (trimChars c) := by
    rw [hm2]
    exact mapGet_append_not_has _ _ _ habs
  rw [hget]
  rfl

/-- Witness for C9: creation then append evaluated on a one-section body. -/
theorem missing_section_create_append_witness :
    mapHas (parseMarkdownSections bodyA) ("New").data = false ∧
    (updateContentSection bodyA ("New").data ("x").data .append
      = bodyA ++ ('\n' :: '\n' :: '#' :: ' ' :: ("New").data) ++ ('\n' :: '\n' :: ("x").data) ∧
    parseMarkdownSections (updateContentSection bodyA ("New").data ("x").data .append)
      = parseMarkdownSections bodyA ++ [(("New").data, trimChars ("x").data)] ∧
    mapGet (parseMarkdownSections (updateContentSection
        (updateContentSection bodyA ("New").data ("x").data .append)
        ("New").data ("y").data .append)) ("New").data
      = some (trimChars (trimChars ("x").data ++ '\n' :: '\n' :: ("y").data))) :=
  ⟨by decide, missing_section_create_append bodyA ("New").data ("x").data ("y").data .append
    (by decide) (by decide) (by decide) (by decide)
    (by simp only [headingFree]; decide) (by simp only [headingFree]; decide)
    (by simp only [headingFree]; decide) (by simp only [headingFree]; decide)⟩

/-- An appended list is nonempty when its left part is. -/
theorem isEmpty_append_false_left {α : Type} (a b : List α) (h : a ≠ []) :
    (a ++ b).isEmpty = false := by
  rw [Bool.eq_false_iff]
  intro he
  rw [List.isEmpty_iff] at he
  exact h (List.append_eq_nil.mp he).1

/-- An appended list is nonempty when its right part is. -/
theorem isEmpty_append_false_right {α : Type} (a b : List α) (h : b ≠ []) :
    (a ++ b).isEmpty = false := by
  rw [Bool.eq_false_iff]
  intro he
  rw [List.isEmpty_iff] at he
  exact h (List.append_eq_nil.mp he).2

/-- The duplicate-id loop reports something on a list with a repeated id. -/
theorem dupIdErrors_ne_nil (msg : String → String) (seen ids : List String)
    (h : ¬ids.Nodup) : dupIdErrors msg seen ids ≠ [] := by
  intro hnil
  exact h (dupIdErrors_eq_nil msg ids seen hnil).2

/-- `validateGDD`'s validity bit, written out over the scope switches. -/
theorem validateGDD_valid (fm : GDDFrontmatter) (content : Str) (ct : CheckType) :
    (validateGDD fm content ct).valid =
      ((if ct = .all ∨ ct = .frontmatter then frontmatterErrors fm else []) ++
       (if ct = .all ∨ ct = .references then referenceErrors fm else [])).isEmpty := rfl

/-- A document with a repeated feature id validates false under the
frontmatter and all scopes. -/
theorem validate_false_of_dup_features (fm : GDDFrontmatter) (content : Str)
    (h : ¬(fm.features.map (fun f => f.id)).Nodup) :
    (validateGDD fm content .frontmatter).valid = false ∧
    (validateGDD fm content .all).valid = false := by
  have hfe : frontmatterErrors fm ≠ [] := by
    rw [frontmatterErrors]
    intro he
    exact dupIdErrors_ne_nil _ [] _ h (List.append_eq_nil.mp he).2
  constructor
  · rw [validateGDD_valid, if_pos (Or.inr rfl), if_neg (by decide)]
    exact isEmpty_append_false_left _ _ hfe
  · rw [validateGDD_valid, if_pos (Or.inl rfl), if_pos (Or.inl rfl)]
    exact isEmpty_append_false_left _ _ hfe

/-- A document one of whose features holds a repeated task id validates
false under the references and all scopes. -/
theorem validate_false_of_dup_tasks (fm : GDDFrontmatter) (content : Str)
    (f : GDDFeature) (hf : f ∈ fm.features)
    (h : ¬(f.tasks.map (fun t => t.id)).Nodup) :
    (validateGDD fm content .references).valid = false ∧
    (validateGDD fm content .all).valid = false := by
  have hre : referenceErrors fm ≠ [] := by
    rw [referenceErrors]
    intro he
    have hflat := (List.append_eq_nil.mp he).2
    have hmem : dupIdErrors (fun i => s!"Duplicate task ID {i} in feature {f.id}") []
        (f.tasks.map (·.id)) ∈ fm.features.map (fun g =>
          dupIdErrors (fun i => s!"Duplicate task ID {i} in feature {g.id}") []
            (g.tasks.map (·.id))) := List.mem_map_of_mem _ hf
    have hnil := List.flatten_eq_nil_iff.mp hflat _ hmem
    exact dupIdErrors_ne_nil _ [] _ h hnil
  constructor
  · rw [validateGDD_valid, if_neg (by decide), if_pos (Or.inr rfl)]
    exact isEmpty_append_false_right _ _ hre
  · rw [validateGDD_valid, if_pos (Or.inl rfl), if_pos (Or.inl rfl)]
    exact isEmpty_append_false_right _ _ hre

/-- C10 (implicit): the update operations re-check no id uniqueness, for
EVERY document. Renaming a feature F (the first bearing its id) to the id
of any other feature G present in the document succeeds without a
duplicate-id error and the stored document then holds two features with one
id; likewise renaming a task (the first bearing its id, in document order)
to a sibling task's id succeeds and that feature then holds two tasks with
one id; in both cases `validate_structure` subsequently reports the stored
document invalid. -/
theorem updates_skip_uniqueness_checks :
    (∀ (fm : GDDFrontmatter) (content : Str) (fpre : List GDDFeature) (F : GDDFeature)
        (rest : List GDDFeature) (G : GDDFeature),
      fm.features = fpre ++ F :: rest →
      (∀ x ∈ fpre, x.id ≠ F.id) →
      G ∈ fpre ∨ G ∈ rest →
      ∃ fm2, updateFeature fm F.id (featureIdUpdate G.id) = .ok fm2 ∧
        fm2.features = fpre ++ mergeFeature F (featureIdUpdate G.id) :: rest ∧
        (mergeFeature F (featureIdUpdate G.id)).id = G.id ∧
        ¬(fm2.features.map (fun x => x.id)).Nodup ∧
        (validateGDD fm2 content .frontmatter).valid = false ∧
        (validateGDD fm2 content .all).valid = false) ∧
    (∀ (fm : GDDFrontmatter) (content : Str) (fpre : List GDDFeature) (f : GDDFeature)
        (fpost : List GDDFeature) (tpre : List GDDTask) (t : GDDTask) (tpost : List GDDTask)
        (t2 : GDDTask),
      fm.features = fpre ++ f :: fpost →
      (∀ g ∈ fpre, ∀ x ∈ g.tasks, x.id ≠ t.id) →
      f.tasks = tpre ++ t :: tpost →
      (∀ x ∈ tpre, x.id ≠ t.id) →
      t2 ∈ tpre ∨ t2 ∈ tpost →
      ∃ fm2, updateTask fm t.id (taskIdUpdate t2.id) = .ok fm2 ∧
        fm2.features = fpre ++ { f with
          tasks := tpre ++ mergeTask t (taskIdUpdate t2.id) :: tpost } :: fpost ∧
        (mergeTask t (taskIdUpdate t2.id)).id = t2.id ∧
        ¬((tpre ++ mergeTask t (taskIdUpdate t2.id) :: tpost).map (fun x => x.id)).Nodup ∧
        (validateGDD fm2 content .references).valid = false ∧
        (validateGDD fm2 content .all).valid = false) := by
  constructor
  · intro fm content fpre F rest G hfm hpre hG
    have hset := setFirstFeature_found F.id (fun g => mergeFeature g (featureIdUpdate G.id))
      fpre F rest hpre rfl
    have hmid : (mergeFeature F (featureIdUpdate G.id)).id = G.id := rfl
    have hnodup : ¬((fpre ++ mergeFeature F (featureIdUpdate G.id) :: rest).map
        (fun x => x.id)).Nodup := by
      rw [List.map_append, List.map_cons, hmid]
      intro hn
      rw [List.nodup_append] at hn
      rcases hG with hG | hG
      · exact hn.2.2 (List.mem_map_of_mem _ hG) (List.mem_cons_self _ _)
      · exact (List.nodup_cons.mp hn.2.1).1 (List.mem_map_of_mem _ hG)
    have hvf := validate_false_of_dup_features
      { fm with features := fpre ++ mergeFeature F (featureIdUpdate G.id) :: rest }
      content hnodup
    refine ⟨{ fm with features := fpre ++ mergeFeature F (featureIdUpdate G.id) :: rest },
      ?_, rfl, rfl, hnodup, hvf.1, hvf.2⟩
    rw [updateFeature, hfm, hset]
    rfl
  · intro fm content fpre f fpost tpre t tpost t2 hfm hfpre hts htpre hsib
    have hw := updateTaskWalk_found t.id (taskIdUpdate t2.id) fpre f fpost tpre t tpost
      hfpre hts htpre rfl
    have hmid : (mergeTask t (taskIdUpdate t2.id)).id = t2.id := rfl
    have hnodupT : ¬((tpre ++ mergeTask t (taskIdUpdate t2.id) :: tpost).map
        (fun x => x.id)).Nodup := by
      rw [List.map_append, List.map_cons, hmid]
      intro hn
      rw [List.nodup_append] at hn
      rcases hsib with hs | hs
      · exact hn.2.2 (List.mem_map_of_mem _ hs) (List.mem_cons_self _ _)
      · exact (List.nodup_cons.mp hn.2.1).1 (List.mem_map_of_mem _ hs)
    have hfmem : { f with tasks := tpre ++ mergeTask t (taskIdUpdate t2.id) :: tpost }
        ∈ ({ fm with features := fpre ++ { f with
            tasks := tpre ++ mergeTask t (taskIdUpdate t2.id) :: tpost } :: fpost }
          : GDDFrontmatter).features :=
      List.mem_append_right _ (List.mem_cons_self _ _)
    have hvt := validate_false_of_dup_tasks
      { fm with features := fpre ++ { f with
          tasks := tpre ++ mergeTask t (taskIdUpdate t2.id) :: tpost } :: fpost }
      content _ hfmem hnodupT
    refine ⟨{ fm with features := fpre ++ { f with
        tasks := tpre ++ mergeTask t (taskIdUpdate t2.id) :: tpost } :: fpost },
      ?_, rfl, rfl, hnodupT, hvt.1, hvt.2⟩
    rw [updateTask, hfm, hw]

/-- Witness for C10: the universal statement evaluated on `fmTwoFeatDoc` —
renaming `F-1` to `F-2` and `T1` to `T2` stores the duplicate-id documents
which validation then rejects. -/
theorem updates_skip_uniqueness_checks_witness :
    updateFeature fmTwoFeatDoc "F-1" (featureIdUpdate "F-2") = .ok fmDupFeatDoc ∧
    fmDupFeatDoc.features.map (fun f => f.id) = ["F-2", "F-2"] ∧
    (validateGDD fmDupFeatDoc [] .frontmatter).valid = false ∧
    updateTask fmTwoFeatDoc "T1" (taskIdUpdate "T2") = .ok fmDupTaskDoc ∧
    fmDupTaskDoc.features.map (fun f => f.tasks.map (fun t => t.id)) = [[], ["T2", "T2"]] ∧
    (validateGDD fmDupTaskDoc [] .references).valid = false := by
  exact ⟨by rfl, by decide, by decide, by rfl, by decide, by decide⟩
